import Mathlib

/-!
# api-slack-bot: a shallow embedding of `api-slack-bot.go`

The development embeds the command handler of the Slack bot
(`HandleAppMentionEventToBot`), the fan-out/fan-in over the balancers
(`callBalancer` and the merge loop), the build lookup (`callWebHost`,
`matchRegEx`) and the marker function `nodeColor`, and proves or refutes the
properties the specification states about them.

Modelling conventions.

* A Go `string` is a list of Unicode characters (`GoString`); the embedding
  covers valid UTF-8 text.
* A Go `map[string]string` is an association list with pairwise distinct keys
  (`GoMap`, `GoMap.WF`).  Iteration order of `range` over a map is not fixed by
  the language; wherever the source ranges over a map the embedding takes the
  visiting order as an argument and theorems quantify over every permutation.
* Goroutines send on an unbuffered channel; the order of the sends is an
  argument (`arrival`) and theorems quantify over every permutation.
* The network is stubbed in the source by two literals (the balancer JSON and
  the host page).  The embedding takes the decoded farm name and the page text
  as arguments; `stubFarmName` and `resBody` are the literals of the source.
* The pattern of `matchRegEx` starts with a literal, so each of its matches is
  nonempty and the rules of `FindAllStringSubmatch` for empty matches are not
  part of the scan.
* A nil pointer dereference is the failure `Failure.nilDereference`; a receive
  on a channel nobody will send on is `none`.
-/

namespace SlackBot

/-! ## Strings -/

/-- A Go string, as the sequence of its characters. -/
abbrev GoString := List Char

/-- The function `strings.Contains s substr`: `substr` occurs in `s`. -/
def Contains : GoString → GoString → Bool
  | [], substr => substr.isPrefixOf []
  | c :: s, substr => substr.isPrefixOf (c :: s) || Contains s substr

/-- The function `unicode.ToLower`: the ASCII range is handled inline, every
other character goes through the Unicode case table, which is an argument. -/
def unicodeToLower (lowerTable : Char → Char) (r : Char) : Char :=
  if r.toNat ≤ 0x7F then
    if 'A'.toNat ≤ r.toNat ∧ r.toNat ≤ 'Z'.toNat then
      Char.ofNat (r.toNat + ('a'.toNat - 'A'.toNat))
    else r
  else lowerTable r

/-- The function `strings.ToLower`: `unicode.ToLower` mapped over the string. -/
def ToLower (lowerTable : Char → Char) (s : GoString) : GoString :=
  s.map (unicodeToLower lowerTable)

/-- The function `strings.Trim s cutset`: all leading and trailing characters
that occur in `cutset` are removed. -/
def Trim (s cutset : GoString) : GoString :=
  (s.dropWhile (fun c => decide (c ∈ cutset))).rdropWhile (fun c => decide (c ∈ cutset))

/-! ## Maps -/

/-- A Go `map[string]string`, as the list of its entries. -/
abbrev GoMap := List (GoString × GoString)

/-- The keys of a map. -/
def GoMap.keys (m : GoMap) : List GoString := m.map Prod.fst

/-- A map holds every key at most once. -/
def GoMap.WF (m : GoMap) : Prop := m.keys.Nodup

/-- The comma-ok lookup `v, ok := m[k]`. -/
def GoMap.get? (m : GoMap) (k : GoString) : Option GoString :=
  match m with
  | [] => none
  | (k', v) :: rest => if k' = k then some v else GoMap.get? rest k

/-- The index expression `m[k]`: the zero value when the key is absent. -/
def GoMap.index (m : GoMap) (k : GoString) : GoString := (m.get? k).getD []

/-- The assignment `m[k] = v`. -/
def GoMap.assign (m : GoMap) (k v : GoString) : GoMap :=
  match m with
  | [] => [(k, v)]
  | (k', v') :: rest => if k' = k then (k, v) :: rest else (k', v') :: GoMap.assign rest k v

/-- The map `hostsmap` of the source. -/
def hostsmap : GoMap :=
  [ ("ServerGreen1".toList, "ServerGreen1.domain.com".toList),
    ("ServerBlue1".toList, "ServerBlue1.domain.com".toList),
    ("ServerGreen2".toList, "ServerGreen2.domain.com".toList),
    ("ServerBlue2".toList, "ServerBlue2.domain.com".toList),
    ("ServerGreen3".toList, "ServerGreen3.domain.com".toList),
    ("ServerBlue3".toList, "ServerBlue3.domain.com".toList) ]

/-- The map `balancerSlice` of the source: region to balancer endpoint. -/
def balancerSlice : GoMap :=
  [ ("site1".toList, "https://api1.domain.com/get".toList),
    ("site2".toList, "https://api2.domain.com/get".toList),
    ("site3".toList, "https://api3.domain.com/get".toList) ]

/-! ## The regular expression of `matchRegEx`

Go's `regexp` returns the leftmost match and, among the matches that start
there, the one a backtracking search finds first.  The pattern of the source
uses literals, a capture group and stars over single-character classes, so the
program below is run by a backtracking search over exactly these
instructions. -/

/-- One instruction of a compiled pattern. -/
inductive Inst where
  | rune (c : Char)
  | star (cls : Char → Bool) (greedy : Bool)
  | capOpen
  | capClose

/-- The state of a match: characters consumed and the bounds of group 1. -/
structure Thread where
  pos : Nat
  capStart : Nat
  capEnd : Nat
deriving DecidableEq, Repr

/-- The class `\s` of Go's regexp syntax: `[\t\n\f\r ]`. -/
def isSpaceClass (c : Char) : Bool :=
  c == '\t' || c == '\n' || c == Char.ofNat 0x0C || c == '\r' || c == ' '

/-- The class `.` without the `s` flag: every character but the newline. -/
def isDotClass (c : Char) : Bool := c != '\n'

/-- The loop of `cls*` (greedy) or `cls*?` (lazy) in front of the continuation
`k`: a greedy star tries one more character first, a lazy star tries the
continuation first. -/
def starLoop (cls : Char → Bool) (greedy : Bool) (k : GoString → Thread → Option Thread) :
    GoString → Thread → Option Thread
  | [], t => k [] t
  | c :: s, t =>
    if cls c then
      if greedy then
        (starLoop cls greedy k s { t with pos := t.pos + 1 }).orElse fun _ => k (c :: s) t
      else
        (k (c :: s) t).orElse fun _ => starLoop cls greedy k s { t with pos := t.pos + 1 }
    else k (c :: s) t

/-- The backtracking search: the first successful thread of the program on the
text, anchored at the start of the text. -/
def backtrack : List Inst → GoString → Thread → Option Thread
  | [], _, t => some t
  | .rune c :: prog, s, t =>
    match s with
    | [] => none
    | d :: s => if d = c then backtrack prog s { t with pos := t.pos + 1 } else none
  | .star cls greedy :: prog, s, t => starLoop cls greedy (backtrack prog) s t
  | .capOpen :: prog, s, t => backtrack prog s { t with capStart := t.pos }
  | .capClose :: prog, s, t => backtrack prog s { t with capEnd := t.pos }

/-- The compiled pattern `Build:\s*(.*?)\s*<br>`. -/
def buildRe : List Inst :=
  [.rune 'B', .rune 'u', .rune 'i', .rune 'l', .rune 'd', .rune ':',
   .star isSpaceClass true, .capOpen, .star isDotClass false, .capClose,
   .star isSpaceClass true, .rune '<', .rune 'b', .rune 'r', .rune '>']

/-- The submatch slice of a match that starts at the head of `s`: the whole
match and group 1. -/
def submatches (s : GoString) (t : Thread) : List GoString :=
  [s.take t.pos, (s.drop t.capStart).take (t.capEnd - t.capStart)]

/-- The scan of `FindAllStringSubmatch`: `skip` characters still belong to the
previous match; otherwise the pattern is tried at the current position and the
scan resumes behind the match, or one character further when there is none. -/
def findAllFrom (re : List Inst) : Nat → GoString → List (List GoString)
  | _, [] => []
  | skip + 1, _ :: s => findAllFrom re skip s
  | 0, c :: s =>
    match backtrack re (c :: s) ⟨0, 0, 0⟩ with
    | some t => submatches (c :: s) t :: findAllFrom re (t.pos - 1) s
    | none => findAllFrom re 0 s

/-- The call `re.FindAllStringSubmatch(input, -1)`: the successive
non-overlapping matches, left to right. -/
def FindAllStringSubmatch (re : List Inst) (input : GoString) : List (List GoString) :=
  findAllFrom re 0 input

/-- The function `matchRegEx` of the source. -/
def matchRegEx (input : GoString) : GoString :=
  let result : GoString := []
  let mtchs := FindAllStringSubmatch buildRe input
  mtchs.foldl (fun _ v => v.getD 1 []) result

/-- The literal page text of `callWebHost`. -/
def resBody : GoString :=
  "SUCCESS: ServerName\n\tBuild: [20210314.1.2730-new-cool-ui-feature]<br>\n\tServer IP: 172.0.0.1".toList

/-- The function `callWebHost`, with the page served by the host as an
argument (`fun _ => resBody` in the source). -/
def callWebHost (page : GoString → GoString) (url : GoString) : GoString :=
  let buildVersion := matchRegEx (page url)
  buildVersion

/-- The function `nodeColor` of the source. -/
def nodeColor (lowerTable : Char → Char) (nodeColoer : GoString) : GoString :=
  let nodeColoer := ToLower lowerTable nodeColoer
  if nodeColoer = "blue".toList then ":large_blue_circle:".toList
  else if nodeColoer = "green".toList then ":green_circle:".toList
  else ":goose:".toList

/-! ## Fan-out and fan-in -/

/-- The farm name decoded from the literal JSON of `callBalancer`. -/
def stubFarmName : GoString := "site1.domain.com-green".toList

/-- The function `callBalancer`: the map it sends on the channel, with the
decoded farm name `Balancerresult.Farms[0].Name` as an argument
(`stubFarmName` in the source). -/
def callBalancer (str : GoString) (region _url : GoString) : GoMap :=
  let innerBalancerResult : GoMap := []
  if Contains str "blue".toList then innerBalancerResult.assign region "blue".toList
  else if Contains str "green".toList then innerBalancerResult.assign region "green".toList
  else innerBalancerResult

/-- The inner loop `for k, v := range outVal { result[k] = v }`. -/
def mergeInto (result outVal : GoMap) : GoMap :=
  outVal.foldl (fun r kv => r.assign kv.1 kv.2) result

/-- The fan-in loop: `n` receives from the channel, each merged into `result`.
A receive with nothing left to arrive blocks forever (`none`). -/
def fanIn : Nat → List GoMap → GoMap → Option GoMap
  | 0, _, result => some result
  | _ + 1, [], _ => none
  | n + 1, outVal :: ch, result => fanIn n ch (mergeInto result outVal)

/-- Lines 160 to 173: one `callBalancer` per entry of `slice`, whose sends
arrive in the order `arrival`, and `len(slice)` receives merged into a fresh
map. -/
def collect (slice : GoMap) (farmName : GoString → GoString) (arrival : List GoString) :
    Option GoMap :=
  let ch := arrival.map fun region => callBalancer (farmName region) region (slice.index region)
  fanIn slice.length ch []

/-! ## The handler -/

/-- The struct `HostResult` of the source. -/
structure HostResult where
  Region : GoString
  ActiveNode : GoString
  Build : GoString
deriving DecidableEq, Repr

/-- The fields of `slack.Attachment` the handler sets. -/
structure Attachment where
  Text : GoString
  Color : GoString
deriving DecidableEq, Repr

/-- The ways the handler stops without posting. -/
inductive Failure where
  | userInfo (err : GoString)
  | nilDereference
  | blocked
deriving DecidableEq, Repr

/-- The three pointers `site1Result`, `site2Result`, `site3Result`. -/
structure Sites where
  site1Result : Option HostResult
  site2Result : Option HostResult
  site3Result : Option HostResult
deriving DecidableEq, Repr

/-- The body of the loop `for k, v := range result` (lines 179 to 218). -/
def rangeBody (page : GoString → GoString) (st : Sites) (kv : GoString × GoString) : Sites :=
  let k := kv.1
  let v := kv.2
  if k = "site1".toList then
    if v = "blue".toList then
      { st with site1Result := some (HostResult.mk "site1".toList "Blue".toList
          (callWebHost page (hostsmap.index "ServerBlue1".toList))) }
    else if v = "green".toList then
      { st with site1Result := some (HostResult.mk "site1".toList "Green".toList
          (callWebHost page (hostsmap.index "ServerGreen1".toList))) }
    else st
  else if k = "site2".toList then
    if v = "blue".toList then
      { st with site2Result := some (HostResult.mk "site2".toList "Blue".toList
          (callWebHost page (hostsmap.index "ServerBlue2".toList))) }
    else if v = "green".toList then
      { st with site2Result := some (HostResult.mk "site2".toList "Green".toList
          (callWebHost page (hostsmap.index "ServerGreen2".toList))) }
    else st
  else if k = "site3".toList then
    if v = "blue".toList then
      { st with site3Result := some (HostResult.mk "site3".toList "Blue".toList
          (callWebHost page (hostsmap.index "ServerBlue3".toList))) }
    else if v = "green".toList then
      { st with site3Result := some (HostResult.mk "site3".toList "Green".toList
          (callWebHost page (hostsmap.index "ServerGreen3".toList))) }
    else st
  else st

/-- Reading a field through a `*HostResult`. -/
def deref : Option HostResult → Except Failure HostResult
  | some r => .ok r
  | none => .error .nilDereference

/-- The format `"Hello %s\n"`. -/
def sprintfHello (realName : GoString) : GoString :=
  "Hello ".toList ++ realName ++ "\n".toList

/-- The format `"SiteK is %s Build <https://deploy.app.com/releases/%s|%s>\n"`,
for the label `SiteK`. -/
def sprintfSite (label color trimmed build : GoString) : GoString :=
  label ++ " is ".toList ++ color ++ " Build <https://deploy.app.com/releases/".toList
    ++ trimmed ++ "|".toList ++ build ++ ">\n".toList

/-- Lines 175 to 225: the pointers are filled while ranging over `result` in
the order `visit`, then the four lines of the reply are formatted. -/
def statusReply (lowerTable : Char → Char) (page : GoString → GoString) (realName : GoString)
    (visit : List (GoString × GoString)) : Except Failure GoString := do
  let st := visit.foldl (rangeBody page) ⟨none, none, none⟩
  let text := sprintfHello realName
  let r1 ← deref st.site1Result
  let text := text ++ sprintfSite "Site1".toList (nodeColor lowerTable r1.ActiveNode)
    (Trim (Trim r1.Build "]".toList) "[".toList) r1.Build
  let r2 ← deref st.site2Result
  let text := text ++ sprintfSite "Site2".toList (nodeColor lowerTable r2.ActiveNode)
    (Trim (Trim r2.Build "]".toList) "[".toList) r2.Build
  let r3 ← deref st.site3Result
  let text := text ++ sprintfSite "Site3".toList (nodeColor lowerTable r3.ActiveNode)
    (Trim (Trim r3.Build "]".toList) "[".toList) r3.Build
  return text

/-- The branch of the handler a command takes. -/
inductive Intent where
  | statusQuery
  | help
  | fallback
deriving DecidableEq, Repr

/-- The conditions of lines 152, 157, 228 and 234. -/
def commandIntent (lowerTable : Char → Char) (eventText : GoString) : Intent :=
  let text := ToLower lowerTable eventText
  if Contains text "active_node".toList || Contains text "!an".toList then .statusQuery
  else if Contains text "help".toList then .help
  else .fallback

/-- What the handler receives from outside the process. -/
structure World where
  lowerTable : Char → Char
  userInfo : Except GoString GoString
  farmName : GoString → GoString
  arrival : List GoString
  visit : GoMap → List (GoString × GoString)
  page : GoString → GoString

/-- The function `HandleAppMentionEventToBot`, up to the attachment it hands to
`PostMessage`. -/
def HandleAppMentionEventToBot (w : World) (eventText : GoString) : Except Failure Attachment :=
  match w.userInfo with
  | .error err => .error (.userInfo err)
  | .ok realName =>
    match commandIntent w.lowerTable eventText with
    | .statusQuery =>
      match collect balancerSlice w.farmName w.arrival with
      | none => .error .blocked
      | some result =>
        match statusReply w.lowerTable w.page realName (w.visit result) with
        | .error f => .error f
        | .ok text => .ok ⟨text, "#4af030".toList⟩
    | .help =>
      .ok ⟨sprintfHello realName ++ "Only one operation is avalable for now \n".toList
        ++ "active_node or !an - bot will display Site1\\Site2\\Site3 active node and deployed build \n".toList,
        "#4af030".toList⟩
    | .fallback =>
      .ok ⟨sprintfHello realName ++ "Try to use \x27help\x27 with the bot name \n".toList,
        "#4af030".toList⟩

/-! ## Definitions used to state the properties -/

/-- The farm name is one `callBalancer` recognises. -/
def recognised (str : GoString) : Bool :=
  Contains str "blue".toList || Contains str "green".toList

/-- The `HostResult` the loop body stores for region `site<n>` when the map
holds `v` under that key. -/
def pick (page : GoString → GoString) (n : GoString) (v : Option GoString) : Option HostResult :=
  match v with
  | none => none
  | some v =>
    if v = "blue".toList then
      some ⟨"site".toList ++ n, "Blue".toList,
        callWebHost page ("ServerBlue".toList ++ n ++ ".domain.com".toList)⟩
    else if v = "green".toList then
      some ⟨"site".toList ++ n, "Green".toList,
        callWebHost page ("ServerGreen".toList ++ n ++ ".domain.com".toList)⟩
    else none

/-- A pointer assigned in the loop keeps its old value unless the entry sets it. -/
def orKeep (new old : Option HostResult) : Option HostResult :=
  match new with
  | some r => some r
  | none => old

/-- The host the source queries for region `site<n>` serving `variant`. -/
def activeHost (n variant : GoString) : GoString :=
  (if variant = "blue".toList then "ServerBlue".toList else "ServerGreen".toList)
    ++ n ++ ".domain.com".toList

/-- The line the specification prescribes for region `site<n>` serving
`variant`: the marker of the variant, and the detail string `B` wrapped in a
link whose target is `B` stripped of `]` and then of `[` at both ends. -/
def expectedLine (lowerTable : Char → Char) (page : GoString → GoString)
    (n variant : GoString) : GoString :=
  let B := callWebHost page (activeHost n variant)
  let T := Trim (Trim B "]".toList) "[".toList
  "Site".toList ++ n ++ " is ".toList ++ nodeColor lowerTable variant
    ++ " Build <https://deploy.app.com/releases/".toList ++ T ++ "|".toList ++ B ++ ">\n".toList

/-- The part of the pattern behind the label: `\s*(.*?)\s*<br>`. -/
def valueRe : List Inst :=
  [.star isSpaceClass true, .capOpen, .star isDotClass false, .capClose,
   .star isSpaceClass true, .rune '<', .rune 'b', .rune 'r', .rune '>']

/-- Text that neither starts nor ends with white space, has no newline and does
not contain `<br>`. -/
structure CleanValue (v : GoString) : Prop where
  noLeading : ∀ c, v.head? = some c → isSpaceClass c = false
  noTrailing : ∀ c, v.getLast? = some c → isSpaceClass c = false
  noNewline : '\n' ∉ v
  noBr : ¬ "<br>".toList <:+: v

/-- The text starts with a string of the pattern `Build:\s*(.*?)\s*<br>`: the
label, white space, text without newline, white space and `<br>`. -/
def StartsWithMatch (s : GoString) : Prop :=
  ∃ ws₁ x ws₂ rest : GoString,
    s = "Build:".toList ++ (ws₁ ++ (x ++ (ws₂ ++ ("<br>".toList ++ rest)))) ∧
    (∀ c ∈ ws₁, isSpaceClass c = true) ∧ '\n' ∉ x ∧ (∀ c ∈ ws₂, isSpaceClass c = true)

/-- One occurrence of the pattern in a text: the label, white space, the
value, white space and `<br>`. -/
def occurrence (ws₁ v ws₂ : GoString) : GoString :=
  "Build:".toList ++ (ws₁ ++ (v ++ (ws₂ ++ "<br>".toList)))

/-- The left-to-right scan of a text for the pattern, told on the text alone:
`Scan text vals` holds when `vals` are the values of the successive
non-overlapping occurrences.  A character is passed over only when the text
does not start with a string of the pattern there; otherwise the occurrence at
that position is taken, with its clean value, and the scan resumes behind it. -/
inductive Scan : GoString → List GoString → Prop where
  | done : Scan [] []
  | skip (c : Char) (s : GoString) (vals : List GoString) :
      ¬ StartsWithMatch (c :: s) → Scan s vals → Scan (c :: s) vals
  | hit (ws₁ v ws₂ rest : GoString) (vals : List GoString) :
      (∀ c ∈ ws₁, isSpaceClass c = true) → CleanValue v →
      (∀ c ∈ ws₂, isSpaceClass c = true) → Scan rest vals →
      Scan (occurrence ws₁ v ws₂ ++ rest) (v :: vals)

/-! ## Theorems -/

set_option maxRecDepth 100000

/-- The function `Contains` decides whether `sub` is a contiguous part of `s`. -/
theorem contains_iff (s sub : GoString) : Contains s sub = true ↔ sub <:+: s := by
  induction s with
  | nil => simp [Contains]
  | cons c s ih =>
    simp only [Contains, Bool.or_eq_true, ih, List.isPrefixOf_iff_prefix, List.infix_cons_iff]

/-- On ASCII, `unicodeToLower` is the ASCII lower-casing, whatever the table. -/
theorem unicodeToLower_ascii (tbl : Char → Char) (c : Char) (h : c.toNat ≤ 127) :
    unicodeToLower tbl c = c.toLower := by
  simp [unicodeToLower, Char.toLower, h]

/-- ASCII lower-casing leaves a character outside ASCII alone. -/
theorem toLower_nonascii (c : Char) (h : ¬ c.toNat ≤ 127) : c.toLower = c := by
  simp [Char.toLower]
  omega

/-- ASCII lower-casing keeps an ASCII character in ASCII. -/
theorem toLower_ascii_bound (c : Char) (h : c.toNat ≤ 127) : c.toLower.toNat ≤ 127 := by
  unfold Char.toLower
  simp only
  split
  · next h2 =>
    obtain ⟨h3, h4⟩ := h2
    generalize c.toNat = n at h3 h4
    interval_cases n <;> decide
  · exact h

/-- Characters that differ only in ASCII letter case have the same lower case. -/
theorem unicodeToLower_congr (tbl : Char → Char) (c d : Char) (h : c.toLower = d.toLower) :
    unicodeToLower tbl c = unicodeToLower tbl d := by
  by_cases hc : c.toNat ≤ 127 <;> by_cases hd : d.toNat ≤ 127
  · rw [unicodeToLower_ascii _ _ hc, unicodeToLower_ascii _ _ hd, h]
  · rw [toLower_nonascii d hd] at h
    exact absurd (h ▸ toLower_ascii_bound c hc) hd
  · rw [toLower_nonascii c hc] at h
    exact absurd (h ▸ toLower_ascii_bound d hd) hc
  · rw [toLower_nonascii c hc, toLower_nonascii d hd] at h
    rw [h]

/-- Strings that differ only in ASCII letter case have the same lower case. -/
theorem ToLower_congr (tbl : Char → Char) (a b : GoString)
    (h : a.map Char.toLower = b.map Char.toLower) : ToLower tbl a = ToLower tbl b := by
  induction a generalizing b with
  | nil => cases b <;> simp_all [ToLower]
  | cons c a ih =>
    cases b with
    | nil => simp at h
    | cons d b =>
      simp only [List.map_cons, List.cons.injEq] at h
      have := ih b h.2
      simp only [ToLower, List.map_cons, List.cons.injEq] at this ⊢
      exact ⟨unicodeToLower_congr tbl c d h.1, this⟩

/-- A letter-case variant of a lower-case literal lower-cases to the literal. -/
theorem ToLower_of_fold (tbl : Char → Char) (kw lit : GoString)
    (hlit : ToLower tbl lit = lit) (hfix : lit.map Char.toLower = lit)
    (h : kw.map Char.toLower = lit) : ToLower tbl kw = lit := by
  rw [ToLower_congr tbl kw lit (h.trans hfix.symm), hlit]

/-- Lower-casing keeps occurrences: a part of the text stays a part. -/
theorem ToLower_infix (tbl : Char → Char) {kw text : GoString} (h : kw <:+: text) :
    ToLower tbl kw <:+: ToLower tbl text := by
  obtain ⟨p, q, rfl⟩ := h
  exact ⟨ToLower tbl p, ToLower tbl q, by simp [ToLower]⟩

/-- C8: `nodeColor` answers every string with one of three markers: the blue
circle exactly when the lower-cased argument is `blue`, the green circle exactly
when it is `green`, the goose for every other string; arguments that differ
only in letter case get the same marker, `BLUE` and `blue` among them. -/
theorem nodeColor_total_case_insensitive (lowerTable : Char → Char) (s : GoString) :
    (nodeColor lowerTable s = ":large_blue_circle:".toList ↔
        ToLower lowerTable s = "blue".toList) ∧
    (nodeColor lowerTable s = ":green_circle:".toList ↔
        ToLower lowerTable s = "green".toList) ∧
    (nodeColor lowerTable s = ":goose:".toList ↔
        ToLower lowerTable s ≠ "blue".toList ∧ ToLower lowerTable s ≠ "green".toList) ∧
    (∀ s' : GoString, s'.map Char.toLower = s.map Char.toLower →
        nodeColor lowerTable s' = nodeColor lowerTable s) ∧
    nodeColor lowerTable "BLUE".toList = nodeColor lowerTable "blue".toList := by
  refine ⟨?_, ?_, ?_, ?_, ?_⟩
  · simp only [nodeColor]
    split_ifs with hb hg <;> simp_all
  · simp only [nodeColor]
    split_ifs with hb hg <;> simp_all
  · simp only [nodeColor]
    split_ifs with hb hg <;> simp_all
  · intro s' h
    simp only [nodeColor, ToLower_congr lowerTable s' s h]
  · simp [nodeColor, ToLower, unicodeToLower]

/-- The arguments `BLUE` and `blue` get the same marker. -/
theorem nodeColor_total_case_insensitive_witness :
    nodeColor id "BLUE".toList = nodeColor id "blue".toList :=
  (nodeColor_total_case_insensitive id "blue".toList).2.2.2.1 "BLUE".toList (by decide)

/-- C3: the branch of the handler is the status query exactly when the
lower-cased text contains `active_node` or `!an`, help exactly when it contains
neither but contains `help`, and the fallback exactly when it contains none of
the three; a text that holds a status keyword and `help`, each in any letter
case, takes the status query. -/
theorem commandIntent_precedence (lowerTable : Char → Char) (text : GoString) :
    (commandIntent lowerTable text = Intent.statusQuery ↔
        ("active_node".toList <:+: ToLower lowerTable text ∨
          "!an".toList <:+: ToLower lowerTable text)) ∧
    (commandIntent lowerTable text = Intent.help ↔
        (¬ "active_node".toList <:+: ToLower lowerTable text ∧
          ¬ "!an".toList <:+: ToLower lowerTable text) ∧
        "help".toList <:+: ToLower lowerTable text) ∧
    (commandIntent lowerTable text = Intent.fallback ↔
        (¬ "active_node".toList <:+: ToLower lowerTable text ∧
          ¬ "!an".toList <:+: ToLower lowerTable text) ∧
        ¬ "help".toList <:+: ToLower lowerTable text) ∧
    (∀ kw h : GoString,
        kw.map Char.toLower = "active_node".toList ∨ kw.map Char.toLower = "!an".toList →
        h.map Char.toLower = "help".toList →
        kw <:+: text → h <:+: text →
        commandIntent lowerTable text = Intent.statusQuery) := by
  have key : ∀ p q r : Prop, [Decidable p] → [Decidable q] → [Decidable r] →
      ((if p ∨ q then Intent.statusQuery else if r then Intent.help else Intent.fallback)
          = Intent.statusQuery ↔ (p ∨ q)) ∧
      ((if p ∨ q then Intent.statusQuery else if r then Intent.help else Intent.fallback)
          = Intent.help ↔ (¬ p ∧ ¬ q) ∧ r) ∧
      ((if p ∨ q then Intent.statusQuery else if r then Intent.help else Intent.fallback)
          = Intent.fallback ↔ (¬ p ∧ ¬ q) ∧ ¬ r) := by
    intro p q r _ _ _
    by_cases hp : p <;> by_cases hq : q <;> by_cases hr : r <;> simp [hp, hq, hr]
  have unfoldIntent : commandIntent lowerTable text =
      if "active_node".toList <:+: ToLower lowerTable text ∨
          "!an".toList <:+: ToLower lowerTable text then Intent.statusQuery
      else if "help".toList <:+: ToLower lowerTable text then Intent.help
      else Intent.fallback := by
    simp only [commandIntent, Bool.or_eq_true, contains_iff]
  rw [unfoldIntent]
  obtain ⟨k1, k2, k3⟩ := key ("active_node".toList <:+: ToLower lowerTable text)
    ("!an".toList <:+: ToLower lowerTable text) ("help".toList <:+: ToLower lowerTable text)
  refine ⟨k1, k2, k3, ?_⟩
  intro kw _ hkw _ hin _
  rw [k1]
  have hinf := ToLower_infix lowerTable hin
  rcases hkw with hkw | hkw
  · left
    rw [ToLower_of_fold lowerTable kw _ (by simp [ToLower, unicodeToLower]) (by decide) hkw] at hinf
    exact hinf
  · right
    rw [ToLower_of_fold lowerTable kw _ (by simp [ToLower, unicodeToLower]) (by decide) hkw] at hinf
    exact hinf

/-- The text `Active_Node HELP` takes the status query. -/
theorem commandIntent_precedence_witness :
    commandIntent id "Active_Node HELP".toList = Intent.statusQuery :=
  (commandIntent_precedence id "Active_Node HELP".toList).2.2.2
    "Active_Node".toList "HELP".toList (Or.inl (by decide)) (by decide)
    ⟨[], " HELP".toList, by decide⟩ ⟨"Active_Node ".toList, [], by decide⟩

/-- The text `Hello` holds no keyword: it takes the fallback branch, there is no
greeting check in the code. -/
theorem commandIntent_hello : commandIntent id "Hello".toList = Intent.fallback := by
  decide

/-- The farm name `lb-bluegreen` contains `green`, and `callBalancer` answers
`blue` for it, not `green`: as stated, C4 fails on a name that contains both
words. -/
theorem callBalancer_blue_before_green :
    "green".toList <:+: "lb-bluegreen".toList ∧
    callBalancer "lb-bluegreen".toList "site1".toList "https://api1.domain.com/get".toList
      = [("site1".toList, "blue".toList)] ∧
    callBalancer "lb-bluegreen".toList "site1".toList "https://api1.domain.com/get".toList
      ≠ [("site1".toList, "green".toList)] := by
  refine ⟨⟨"lb-blue".toList, [], by decide⟩, by decide, by decide⟩

/-- The map `callBalancer` sends, by occurrence of the two words in the farm name. -/
theorem callBalancer_eq (str region url : GoString) :
    callBalancer str region url =
      if "blue".toList <:+: str then [(region, "blue".toList)]
      else if "green".toList <:+: str then [(region, "green".toList)]
      else [] := by
  simp only [callBalancer, contains_iff, GoMap.assign]

/-- C4, amended: `callBalancer` answers `blue` when the farm name contains
`blue`, `green` when it contains `green` and not `blue`, and sends an empty map
for any other name; `site1.domain.com-green` gives `green` and
`site1.domain.com-blue` gives `blue`. -/
theorem callBalancer_classification (str region url : GoString) :
    ("blue".toList <:+: str →
        callBalancer str region url = [(region, "blue".toList)]) ∧
    (¬ "blue".toList <:+: str → "green".toList <:+: str →
        callBalancer str region url = [(region, "green".toList)]) ∧
    (¬ "blue".toList <:+: str → ¬ "green".toList <:+: str →
        callBalancer str region url = []) ∧
    (callBalancer "site1.domain.com-green".toList region url = [(region, "green".toList)]) ∧
    (callBalancer "site1.domain.com-blue".toList region url = [(region, "blue".toList)]) := by
  refine ⟨?_, ?_, ?_, ?_, ?_⟩
  · intro hb
    rw [callBalancer_eq, if_pos hb]
  · intro hb hg
    rw [callBalancer_eq, if_neg hb, if_pos hg]
  · intro hb hg
    rw [callBalancer_eq, if_neg hb, if_neg hg]
  · have h1 : ¬ "blue".toList <:+: "site1.domain.com-green".toList := by
      rw [← contains_iff]; decide
    have h2 : "green".toList <:+: "site1.domain.com-green".toList := by
      rw [← contains_iff]; decide
    rw [callBalancer_eq, if_neg h1, if_pos h2]
  · have h1 : "blue".toList <:+: "site1.domain.com-blue".toList := by
      rw [← contains_iff]; decide
    rw [callBalancer_eq, if_pos h1]

/-- The farm name `farm-green-2` gives `green`. -/
theorem callBalancer_classification_witness :
    callBalancer "farm-green-2".toList "site2".toList [] = [("site2".toList, "green".toList)] :=
  (callBalancer_classification "farm-green-2".toList "site2".toList []).2.1
    (by rw [← contains_iff]; decide) ⟨"farm-".toList, "-2".toList, by decide⟩

/-- A lookup misses exactly the keys the map does not hold. -/
theorem GoMap.get_eq_none_iff (m : GoMap) (k : GoString) :
    m.get? k = none ↔ k ∉ m.keys := by
  induction m with
  | nil => simp [GoMap.get?, GoMap.keys]
  | cons e m ih =>
    obtain ⟨k', v⟩ := e
    by_cases h : k' = k
    · simp [GoMap.get?, GoMap.keys, h]
    · simp only [GoMap.get?, if_neg h, ih, GoMap.keys, List.map_cons, List.mem_cons, not_or]
      constructor
      · intro hm; exact ⟨fun e => h e.symm, hm⟩
      · intro hm; exact hm.2

/-- Assigning a key the map does not hold appends the entry. -/
theorem GoMap.assign_of_not_mem (m : GoMap) (k v : GoString) (h : k ∉ m.keys) :
    m.assign k v = m ++ [(k, v)] := by
  induction m with
  | nil => rfl
  | cons e m ih =>
    obtain ⟨k', v'⟩ := e
    simp only [GoMap.keys, List.map_cons, List.mem_cons, not_or] at h
    have hne : ¬ k' = k := fun e => h.1 e.symm
    simp only [GoMap.assign, if_neg hne, List.cons_append, List.cons.injEq, true_and]
    exact ih h.2

/-- A map returns the value of each of its entries. -/
theorem GoMap.get_of_mem (m : GoMap) (hwf : m.WF) (k v : GoString) (h : (k, v) ∈ m) :
    m.get? k = some v := by
  induction m with
  | nil => simp at h
  | cons e m ih =>
    obtain ⟨k', v'⟩ := e
    simp only [GoMap.WF, GoMap.keys, List.map_cons, List.nodup_cons] at hwf
    rcases List.mem_cons.1 h with h | h
    · cases h
      simp [GoMap.get?]
    · have hne : ¬ k' = k := by
        rintro rfl
        exact hwf.1 (List.mem_map_of_mem Prod.fst h)
      simp only [GoMap.get?, if_neg hne]
      exact ih hwf.2 h

/-- What a lookup returns is an entry of the map. -/
theorem GoMap.mem_of_get (m : GoMap) (k v : GoString) (h : m.get? k = some v) : (k, v) ∈ m := by
  induction m with
  | nil => simp [GoMap.get?] at h
  | cons e m ih =>
    obtain ⟨k', v'⟩ := e
    by_cases hk : k' = k
    · simp only [GoMap.get?, if_pos hk, Option.some.injEq] at h
      simp [hk, h]
    · simp only [GoMap.get?, if_neg hk] at h
      exact List.mem_cons_of_mem _ (ih h)

/-- Merging a map whose keys are new appends its entries. -/
theorem mergeInto_of_fresh (result outVal : GoMap) (h : GoMap.WF (result ++ outVal)) :
    mergeInto result outVal = result ++ outVal := by
  induction outVal generalizing result with
  | nil => simp [mergeInto]
  | cons e outVal ih =>
    obtain ⟨k, v⟩ := e
    have hk : k ∉ result.keys := by
      simp only [GoMap.WF, GoMap.keys, List.map_append, List.map_cons] at h
      have := (List.nodup_append.1 h).2.2
      intro hin
      exact this hin (List.mem_cons_self _ _)
    have hstep : mergeInto result ((k, v) :: outVal) = mergeInto (result.assign k v) outVal := by
      simp [mergeInto]
    rw [hstep, GoMap.assign_of_not_mem _ _ _ hk, ih]
    · simp
    · simpa using h

/-- With pairwise distinct keys on the channel, the fan-in loop over all the
messages returns their entries, in arrival order. -/
theorem fanIn_of_fresh (ch : List GoMap) (result : GoMap)
    (h : GoMap.WF (result ++ ch.flatten)) :
    fanIn ch.length ch result = some (result ++ ch.flatten) := by
  induction ch generalizing result with
  | nil => simp [fanIn]
  | cons outVal ch ih =>
    have h1 : GoMap.WF (result ++ outVal) := by
      simp only [GoMap.WF, GoMap.keys, List.flatten_cons, List.map_append] at h ⊢
      rw [← List.append_assoc] at h
      exact (List.nodup_append.1 h).1
    simp only [List.length_cons, fanIn]
    rw [mergeInto_of_fresh _ _ h1, ih]
    · simp
    · simpa using h

/-- Lookups do not depend on the order of the entries. -/
theorem GoMap.get_perm (m m' : GoMap) (hwf : m.WF) (hp : m'.Perm m) (k : GoString) :
    m'.get? k = m.get? k := by
  have hwf' : m'.WF := by
    unfold GoMap.WF GoMap.keys at hwf ⊢
    exact (hp.map Prod.fst).nodup_iff.2 hwf
  cases h : m.get? k with
  | none =>
    rw [GoMap.get_eq_none_iff] at h ⊢
    intro hin
    exact h ((hp.map Prod.fst).mem_iff.1 hin)
  | some v =>
    exact GoMap.get_of_mem m' hwf' k v (hp.mem_iff.2 (GoMap.mem_of_get m k v h))

/-- C9: when the maps sent on the channel hold pairwise distinct keys (each map
keyed by its own region), the fan-in loop returns a result for every arrival
order; the results of two arrival orders hold the same entries and agree on
every lookup, and every entry sent is found under its key. -/
theorem fanIn_arrival_order (msgs msgs' : List GoMap)
    (hkeys : (msgs.flatten.map Prod.fst).Nodup) (hperm : msgs'.Perm msgs) :
    ∃ res res' : GoMap,
      fanIn msgs.length msgs [] = some res ∧
      fanIn msgs.length msgs' [] = some res' ∧
      res'.Perm res ∧
      (∀ k, res'.get? k = res.get? k) ∧
      (∀ m ∈ msgs, ∀ kv ∈ m, res'.get? kv.1 = some kv.2) := by
  have hflat : msgs'.flatten.Perm msgs.flatten := hperm.flatten
  have hwf : GoMap.WF ([] ++ msgs.flatten) := hkeys
  have hwf' : GoMap.WF ([] ++ msgs'.flatten) := by
    show (msgs'.flatten.map Prod.fst).Nodup
    exact (hflat.map Prod.fst).nodup_iff.2 hkeys
  refine ⟨msgs.flatten, msgs'.flatten, ?_, ?_, hflat, ?_, ?_⟩
  · simpa using fanIn_of_fresh msgs [] hwf
  · rw [← hperm.length_eq]
    simpa using fanIn_of_fresh msgs' [] hwf'
  · intro k
    exact GoMap.get_perm _ _ hkeys hflat k
  · intro m hm kv hkv
    apply GoMap.get_of_mem _ hwf'
    exact hflat.mem_iff.2 (List.mem_flatten.2 ⟨m, hm, hkv⟩)

/-- Three regions, one of them unrecognised, in two arrival orders. -/
theorem fanIn_arrival_order_witness :
    ∃ res res' : GoMap,
      fanIn 3 [[("site1".toList, "green".toList)], [], [("site3".toList, "blue".toList)]] []
        = some res ∧
      fanIn 3 [[("site3".toList, "blue".toList)], [("site1".toList, "green".toList)], []] []
        = some res' ∧
      res'.Perm res ∧
      (∀ k, res'.get? k = res.get? k) ∧
      (∀ m ∈ [[("site1".toList, "green".toList)], [], [("site3".toList, "blue".toList)]],
        ∀ kv ∈ m, res'.get? kv.1 = some kv.2) :=
  fanIn_arrival_order
    [[("site1".toList, "green".toList)], [], [("site3".toList, "blue".toList)]]
    [[("site3".toList, "blue".toList)], [("site1".toList, "green".toList)], []]
    (by decide) (by decide)

/-- The map `callBalancer` sends holds the region exactly when the farm name is recognised. -/
theorem callBalancer_keys (str region url : GoString) :
    (callBalancer str region url).map Prod.fst = if recognised str then [region] else [] := by
  simp only [callBalancer_eq, recognised, Bool.or_eq_true, contains_iff]
  split_ifs <;> simp_all

/-- The keys sent on the channel are the regions with a recognised farm name, in arrival order. -/
theorem sent_keys (farmName url : GoString → GoString) (arrival : List GoString) :
    ((arrival.map fun region => callBalancer (farmName region) region (url region)).flatten).map
        Prod.fst = arrival.filter fun region => recognised (farmName region) := by
  induction arrival with
  | nil => rfl
  | cons a arrival ih =>
    simp only [List.map_cons, List.flatten_cons, List.map_append, ih, callBalancer_keys,
      List.filter_cons]
    by_cases h : recognised (farmName a) = true <;> simp [h]

/-- C1, amended: for every region set and every assignment of farm names, the
fan-in returns a map that holds exactly one entry for each region whose farm
name contains `blue` or `green` and none for any other region; its size is the
number of such regions, which is the number of regions when every farm name is
recognised. -/
theorem collect_one_entry_per_recognised_region (slice : GoMap) (farmName : GoString → GoString)
    (arrival : List GoString) (hwf : slice.WF) (harr : arrival.Perm slice.keys) :
    ∃ result : GoMap,
      collect slice farmName arrival = some result ∧
      result.WF ∧
      (∀ region, region ∈ result.keys ↔
        region ∈ slice.keys ∧
          ("blue".toList <:+: farmName region ∨ "green".toList <:+: farmName region)) ∧
      result.length = (slice.keys.filter fun region => recognised (farmName region)).length ∧
      ((∀ region ∈ slice.keys,
          "blue".toList <:+: farmName region ∨ "green".toList <:+: farmName region) →
        result.length = slice.length) := by
  have hrec : ∀ region, recognised (farmName region) = true ↔
      ("blue".toList <:+: farmName region ∨ "green".toList <:+: farmName region) := by
    intro region
    simp only [recognised, Bool.or_eq_true, contains_iff]
  have hnd : arrival.Nodup := harr.nodup_iff.2 hwf
  have hlen : slice.length = arrival.length := by
    rw [harr.length_eq, GoMap.keys, List.length_map]
  let ch := arrival.map fun region =>
    callBalancer (farmName region) region (slice.index region)
  have hkeys : ch.flatten.map Prod.fst =
      arrival.filter fun region => recognised (farmName region) :=
    sent_keys farmName (fun region => slice.index region) arrival
  have hfresh : GoMap.WF ([] ++ ch.flatten) := by
    show (ch.flatten.map Prod.fst).Nodup
    rw [hkeys]
    exact hnd.filter _
  have hrun : collect slice farmName arrival = some ch.flatten := by
    have := fanIn_of_fresh ch [] hfresh
    simp only [ch, List.length_map, List.nil_append] at this
    simp only [collect, hlen]
    exact this
  have hcount : ch.flatten.length =
      (slice.keys.filter fun region => recognised (farmName region)).length := by
    rw [← List.length_map ch.flatten Prod.fst, hkeys]
    exact (harr.filter _).length_eq
  refine ⟨ch.flatten, hrun, hfresh, ?_, hcount, ?_⟩
  · intro region
    show region ∈ ch.flatten.map Prod.fst ↔ _
    rw [hkeys, List.mem_filter, hrec, harr.mem_iff]
  · intro hall
    rw [hcount, List.filter_eq_self.2, GoMap.keys, List.length_map]
    intro region hin
    exact (hrec region).2 (hall region hin)

/-- The three regions of the source with the farm name of the source. -/
theorem collect_one_entry_per_recognised_region_witness :
    ∃ result : GoMap,
      collect balancerSlice (fun _ => stubFarmName)
        ["site2".toList, "site3".toList, "site1".toList] = some result ∧
      result.WF ∧
      (∀ region, region ∈ result.keys ↔
        region ∈ balancerSlice.keys ∧
          ("blue".toList <:+: stubFarmName ∨ "green".toList <:+: stubFarmName)) ∧
      result.length = (balancerSlice.keys.filter fun _ => recognised stubFarmName).length ∧
      ((∀ region ∈ balancerSlice.keys,
          "blue".toList <:+: stubFarmName ∨ "green".toList <:+: stubFarmName) →
        result.length = balancerSlice.length) :=
  collect_one_entry_per_recognised_region balancerSlice (fun _ => stubFarmName)
    ["site2".toList, "site3".toList, "site1".toList]
    (by unfold GoMap.WF GoMap.keys; decide) (by decide)

/-- With an unrecognised farm name for `site3` the result holds two entries for
three regions, and with every farm name unrecognised it is empty: as stated,
C1 fails. -/
theorem collect_drops_unrecognised_region :
    collect balancerSlice
        (fun region => if region = "site3".toList then "site3.domain.com-red".toList
          else stubFarmName)
        ["site1".toList, "site2".toList, "site3".toList]
      = some [("site1".toList, "green".toList), ("site2".toList, "green".toList)] ∧
    List.length [("site1".toList, "green".toList), ("site2".toList, "green".toList)]
      ≠ balancerSlice.length ∧
    collect balancerSlice (fun _ => "maintenance".toList)
        ["site1".toList, "site2".toList, "site3".toList] = some [] := by
  decide

/-- The loop body, pointer by pointer. -/
theorem rangeBody_eq (page : GoString → GoString) (st : Sites) (k v : GoString) :
    rangeBody page st (k, v) =
      ⟨if k = "site1".toList then orKeep (pick page "1".toList (some v)) st.site1Result
        else st.site1Result,
       if k = "site2".toList then orKeep (pick page "2".toList (some v)) st.site2Result
        else st.site2Result,
       if k = "site3".toList then orKeep (pick page "3".toList (some v)) st.site3Result
        else st.site3Result⟩ := by
  have e1 : hostsmap.index "ServerBlue1".toList = "ServerBlue".toList ++ "1".toList ++ ".domain.com".toList := by decide
  have e2 : hostsmap.index "ServerBlue2".toList = "ServerBlue".toList ++ "2".toList ++ ".domain.com".toList := by decide
  have e3 : hostsmap.index "ServerBlue3".toList = "ServerBlue".toList ++ "3".toList ++ ".domain.com".toList := by decide
  have g1 : hostsmap.index "ServerGreen1".toList = "ServerGreen".toList ++ "1".toList ++ ".domain.com".toList := by decide
  have g2 : hostsmap.index "ServerGreen2".toList = "ServerGreen".toList ++ "2".toList ++ ".domain.com".toList := by decide
  have g3 : hostsmap.index "ServerGreen3".toList = "ServerGreen".toList ++ "3".toList ++ ".domain.com".toList := by decide
  have s1 : "site1".toList = "site".toList ++ "1".toList := by decide
  have s2 : "site2".toList = "site".toList ++ "2".toList := by decide
  have s3 : "site3".toList = "site".toList ++ "3".toList := by decide
  have n12 : ¬ "site1".toList = "site2".toList := by decide
  have n13 : ¬ "site1".toList = "site3".toList := by decide
  have n23 : ¬ "site2".toList = "site3".toList := by decide
  have nbg : ¬ "blue".toList = "green".toList := by decide
  cases st with
  | mk a b c =>
  simp only [rangeBody, pick, orKeep, e1, e2, e3, g1, g2, g3]
  by_cases h1 : k = "site1".toList
  · subst h1
    simp only [if_true, if_neg n12, if_neg n13]
    by_cases hb : v = "blue".toList
    · subst hb; simp only [if_true, ← s1]
    · by_cases hg : v = "green".toList
      · subst hg; simp only [if_true, if_neg hb, ← s1]
      · simp only [if_neg hb, if_neg hg]
  · by_cases h2 : k = "site2".toList
    · subst h2
      simp only [if_true, if_neg h1, if_neg n23]
      by_cases hb : v = "blue".toList
      · subst hb; simp only [if_true, ← s2]
      · by_cases hg : v = "green".toList
        · subst hg; simp only [if_true, if_neg hb, ← s2]
        · simp only [if_neg hb, if_neg hg]
    · by_cases h3 : k = "site3".toList
      · subst h3
        simp only [if_true, if_neg h1, if_neg h2]
        by_cases hb : v = "blue".toList
        · subst hb; simp only [if_true, ← s3]
        · by_cases hg : v = "green".toList
          · subst hg; simp only [if_true, if_neg hb, ← s3]
          · simp only [if_neg hb, if_neg hg]
      · simp only [if_neg h1, if_neg h2, if_neg h3]

/-- The pointers after ranging over a map: each is decided by the value the map
holds for its region. -/
theorem foldl_rangeBody (page : GoString → GoString) (visit : GoMap) (hwf : visit.WF) (st : Sites) :
    visit.foldl (rangeBody page) st =
      ⟨orKeep (pick page "1".toList (visit.get? "site1".toList)) st.site1Result,
       orKeep (pick page "2".toList (visit.get? "site2".toList)) st.site2Result,
       orKeep (pick page "3".toList (visit.get? "site3".toList)) st.site3Result⟩ := by
  induction visit generalizing st with
  | nil => cases st; rfl
  | cons e visit ih =>
    obtain ⟨k, v⟩ := e
    have hwf' : GoMap.WF visit := by
      simp only [GoMap.WF, GoMap.keys, List.map_cons, List.nodup_cons] at hwf ⊢
      exact hwf.2
    have hfresh : GoMap.get? visit k = none := by
      rw [GoMap.get_eq_none_iff]
      simp only [GoMap.WF, GoMap.keys, List.map_cons, List.nodup_cons] at hwf
      exact hwf.1
    rw [List.foldl_cons, ih hwf', rangeBody_eq]
    simp only [GoMap.get?]
    have key : ∀ (site n : GoString) (old : Option HostResult),
        orKeep (pick page n (GoMap.get? visit site))
            (if k = site then orKeep (pick page n (some v)) old else old) =
          orKeep (pick page n (if k = site then some v else GoMap.get? visit site)) old := by
      intro site n old
      by_cases h : k = site
      · subst h
        simp only [if_true, hfresh, pick, orKeep]
      · simp only [if_neg h]
    rw [key, key, key]

/-- The reply depends on the map only, not on the order it is visited in. -/
theorem statusReply_eq (lowerTable : Char → Char) (page : GoString → GoString)
    (realName : GoString) (result visit : GoMap) (hwf : result.WF) (hvisit : visit.Perm result) :
    statusReply lowerTable page realName visit =
      (do
        let r1 ← deref (pick page "1".toList (result.get? "site1".toList))
        let r2 ← deref (pick page "2".toList (result.get? "site2".toList))
        let r3 ← deref (pick page "3".toList (result.get? "site3".toList))
        pure (sprintfHello realName
          ++ sprintfSite "Site1".toList (nodeColor lowerTable r1.ActiveNode)
              (Trim (Trim r1.Build "]".toList) "[".toList) r1.Build
          ++ sprintfSite "Site2".toList (nodeColor lowerTable r2.ActiveNode)
              (Trim (Trim r2.Build "]".toList) "[".toList) r2.Build
          ++ sprintfSite "Site3".toList (nodeColor lowerTable r3.ActiveNode)
              (Trim (Trim r3.Build "]".toList) "[".toList) r3.Build)) := by
  have hwf' : GoMap.WF visit := by
    unfold GoMap.WF GoMap.keys at hwf ⊢
    exact (hvisit.map Prod.fst).nodup_iff.2 hwf
  unfold statusReply
  rw [foldl_rangeBody page visit hwf']
  simp only [orKeep, GoMap.get_perm result visit hwf hvisit]
  cases pick page "1".toList (GoMap.get? result "site1".toList) <;>
  cases pick page "2".toList (GoMap.get? result "site2".toList) <;>
  cases pick page "3".toList (GoMap.get? result "site3".toList) <;> rfl

/-- The line formatted for a region that serves `blue` or `green`. -/
theorem pick_line (lowerTable : Char → Char) (page : GoString → GoString)
    (n label variant : GoString) (hl : label = "Site".toList ++ n)
    (hv : variant = "blue".toList ∨ variant = "green".toList) :
    ∃ r, pick page n (some variant) = some r ∧
      sprintfSite label (nodeColor lowerTable r.ActiveNode)
        (Trim (Trim r.Build "]".toList) "[".toList) r.Build
        = expectedLine lowerTable page n variant := by
  have nb : nodeColor lowerTable "Blue".toList = nodeColor lowerTable "blue".toList := by
    simp [nodeColor, ToLower, unicodeToLower]
  have ng : nodeColor lowerTable "Green".toList = nodeColor lowerTable "green".toList := by
    simp [nodeColor, ToLower, unicodeToLower]
  have nbg : ¬ "green".toList = "blue".toList := by decide
  subst hl
  rcases hv with rfl | rfl
  · refine ⟨_, by simp only [pick, if_true]; rfl, ?_⟩
    simp only [sprintfSite, expectedLine, activeHost, if_true, nb, List.append_assoc]
  · refine ⟨_, by simp only [pick, if_neg nbg, if_true]; rfl, ?_⟩
    simp only [sprintfSite, expectedLine, activeHost, if_neg nbg, ng, List.append_assoc]

/-- C10: when the map holds `blue` or `green` for each of `site1`, `site2` and
`site3`, then for every order of visiting the map the reply is the greeting
followed by the lines of Site1, Site2 and Site3, in this order, each with the
marker of the variant and the detail string in the link. -/
theorem statusReply_fixed_order (lowerTable : Char → Char) (page : GoString → GoString)
    (realName : GoString) (result visit : GoMap) (v1 v2 v3 : GoString)
    (hwf : result.WF) (hvisit : visit.Perm result)
    (h1 : result.get? "site1".toList = some v1)
    (h2 : result.get? "site2".toList = some v2)
    (h3 : result.get? "site3".toList = some v3)
    (c1 : v1 = "blue".toList ∨ v1 = "green".toList)
    (c2 : v2 = "blue".toList ∨ v2 = "green".toList)
    (c3 : v3 = "blue".toList ∨ v3 = "green".toList) :
    statusReply lowerTable page realName visit =
      Except.ok ("Hello ".toList ++ realName ++ "\n".toList
        ++ expectedLine lowerTable page "1".toList v1
        ++ expectedLine lowerTable page "2".toList v2
        ++ expectedLine lowerTable page "3".toList v3) := by
  rw [statusReply_eq lowerTable page realName result visit hwf hvisit, h1, h2, h3]
  obtain ⟨r1, e1, l1⟩ := pick_line lowerTable page "1".toList "Site1".toList v1 (by decide) c1
  obtain ⟨r2, e2, l2⟩ := pick_line lowerTable page "2".toList "Site2".toList v2 (by decide) c2
  obtain ⟨r3, e3, l3⟩ := pick_line lowerTable page "3".toList "Site3".toList v3 (by decide) c3
  rw [e1, e2, e3]
  simp only [deref, bind, Except.bind, pure, Except.pure, l1, l2, l3, sprintfHello]

/-- The reply for green, blue, green with the page of the source, visited in the
order site3, site1, site2. -/
theorem statusReply_fixed_order_witness :
    statusReply id (fun _ => resBody) "Ann".toList
        [("site3".toList, "green".toList), ("site1".toList, "green".toList),
          ("site2".toList, "blue".toList)] =
      Except.ok ("Hello Ann\nSite1 is :green_circle: Build <https://deploy.app.com/releases/20210314.1.2730-new-cool-ui-feature|[20210314.1.2730-new-cool-ui-feature]>\nSite2 is :large_blue_circle: Build <https://deploy.app.com/releases/20210314.1.2730-new-cool-ui-feature|[20210314.1.2730-new-cool-ui-feature]>\nSite3 is :green_circle: Build <https://deploy.app.com/releases/20210314.1.2730-new-cool-ui-feature|[20210314.1.2730-new-cool-ui-feature]>\n".toList) :=
  (statusReply_fixed_order id (fun _ => resBody) "Ann".toList
    [("site1".toList, "green".toList), ("site2".toList, "blue".toList),
      ("site3".toList, "green".toList)]
    [("site3".toList, "green".toList), ("site1".toList, "green".toList),
      ("site2".toList, "blue".toList)]
    "green".toList "blue".toList "green".toList
    (by unfold GoMap.WF GoMap.keys; decide) (by decide) (by decide) (by decide) (by decide)
    (by decide) (by decide) (by decide)).trans (congrArg Except.ok (by decide))

/-- The loop stores a `HostResult` for a region exactly when the map holds
`blue` or `green` for it. -/
theorem pick_eq_none_iff (page : GoString → GoString) (n : GoString) (o : Option GoString) :
    pick page n o = none ↔ (o ≠ some "blue".toList ∧ o ≠ some "green".toList) := by
  have nbg : ¬ "green".toList = "blue".toList := by decide
  cases o with
  | none => simp [pick]
  | some v =>
    unfold pick
    by_cases hb : v = "blue".toList
    · subst hb
      simp only [if_true]
      constructor
      · intro h; cases h
      · intro h; exact absurd rfl h.1
    · by_cases hg : v = "green".toList
      · subst hg
        simp only [if_neg nbg, if_true]
        constructor
        · intro h; cases h
        · intro h; exact absurd rfl h.2
      · simp only [if_neg hb, if_neg hg, true_iff]
        exact ⟨fun e => hb (Option.some.inj e), fun e => hg (Option.some.inj e)⟩

/-- The map the fan-in returns when the sends arrive in the order `arrival`. -/
theorem collect_eq_sent (slice : GoMap) (farmName : GoString → GoString)
    (arrival : List GoString) (hwf : slice.WF) (harr : arrival.Perm slice.keys) :
    collect slice farmName arrival =
      some (arrival.map fun region =>
        callBalancer (farmName region) region (slice.index region)).flatten := by
  have hnd : arrival.Nodup := harr.nodup_iff.2 hwf
  have hlen : slice.length = arrival.length := by
    rw [harr.length_eq, GoMap.keys, List.length_map]
  have hkeys := sent_keys farmName (fun region => slice.index region) arrival
  have hfresh : GoMap.WF ([] ++ (arrival.map fun region =>
      callBalancer (farmName region) region (slice.index region)).flatten) := by
    simp only [GoMap.WF, GoMap.keys, List.nil_append]
    rw [hkeys]
    exact hnd.filter _
  have := fanIn_of_fresh _ [] hfresh
  simp only [List.length_map, List.nil_append] at this
  simp only [collect, hlen]
  exact this

/-- With the farm name of the source every region is green in the merged map. -/
theorem collect_stub (arrival : List GoString) (harr : arrival.Perm balancerSlice.keys) :
    ∃ merged : GoMap, collect balancerSlice (fun _ => stubFarmName) arrival = some merged ∧
      merged.WF ∧ ∀ site ∈ ["site1".toList, "site2".toList, "site3".toList],
        merged.get? site = some "green".toList := by
  have hwf : balancerSlice.WF := by unfold GoMap.WF GoMap.keys; decide
  have hstub : ∀ region url, callBalancer stubFarmName region url =
      [(region, "green".toList)] := by
    intro region url
    have h1 : ¬ "blue".toList <:+: stubFarmName := by rw [← contains_iff]; decide
    have h2 : "green".toList <:+: stubFarmName := by rw [← contains_iff]; decide
    rw [callBalancer_eq, if_neg h1, if_pos h2]
  have hflat : ∀ l : List GoString, (l.map fun region =>
      callBalancer stubFarmName region (balancerSlice.index region)).flatten =
      l.map fun region => (region, "green".toList) := by
    intro l
    induction l with
    | nil => rfl
    | cons a l ih =>
      simp only [List.map_cons, List.flatten_cons, hstub, List.singleton_append, List.cons.injEq,
        true_and]
      simpa only [hstub] using ih
  have hnd : arrival.Nodup := harr.nodup_iff.2 hwf
  have hmerged : GoMap.WF (arrival.map fun region => (region, "green".toList)) := by
    have hk : (arrival.map fun region => (region, "green".toList)).map Prod.fst = arrival := by
      rw [List.map_map]
      exact List.map_id arrival
    unfold GoMap.WF GoMap.keys
    rw [hk]
    exact hnd
  refine ⟨arrival.map fun region => (region, "green".toList), ?_, hmerged, ?_⟩
  · rw [collect_eq_sent balancerSlice _ arrival hwf harr]
    exact congrArg some (hflat arrival)
  · intro site hsite
    apply GoMap.get_of_mem _ hmerged
    have hin : site ∈ arrival := harr.mem_iff.2 hsite
    exact List.mem_map.2 ⟨site, hin, rfl⟩

/-- C2, amended: for every merged map and every order of visiting it, building
the status reply completes exactly when `site1`, `site2` and `site3` each carry
`blue` or `green`; when one of them is absent or carries another value the
reply is not built (a field of an unset `HostResult` is read) and no line with
the unknown marker is produced.  The map the handler merges from the balancer
payload of the source carries `green` for all three, for every arrival order,
so the handler itself always completes. -/
theorem statusReply_completes_iff (lowerTable : Char → Char) (page : GoString → GoString)
    (realName : GoString) (result visit : GoMap)
    (hwf : result.WF) (hvisit : visit.Perm result) :
    ((∃ text, statusReply lowerTable page realName visit = Except.ok text) ↔
      ∀ site ∈ ["site1".toList, "site2".toList, "site3".toList],
        result.get? site = some "blue".toList ∨ result.get? site = some "green".toList) ∧
    ((∃ site ∈ ["site1".toList, "site2".toList, "site3".toList],
        result.get? site ≠ some "blue".toList ∧ result.get? site ≠ some "green".toList) →
      statusReply lowerTable page realName visit = Except.error Failure.nilDereference) ∧
    (∀ (arrival : List GoString) (visit' : GoMap → GoMap),
      arrival.Perm balancerSlice.keys → (∀ m, (visit' m).Perm m) →
      ∃ merged text, collect balancerSlice (fun _ => stubFarmName) arrival = some merged ∧
        statusReply lowerTable page realName (visit' merged) = Except.ok text) := by
  -- the reply of any well-formed map, by the three pointers
  have hreply : ∀ (m v : GoMap), m.WF → v.Perm m →
      ((∃ text, statusReply lowerTable page realName v = Except.ok text) ↔
        (pick page "1".toList (m.get? "site1".toList) ≠ none ∧
         pick page "2".toList (m.get? "site2".toList) ≠ none ∧
         pick page "3".toList (m.get? "site3".toList) ≠ none)) ∧
      ((pick page "1".toList (m.get? "site1".toList) = none ∨
         pick page "2".toList (m.get? "site2".toList) = none ∨
         pick page "3".toList (m.get? "site3".toList) = none) →
        statusReply lowerTable page realName v = Except.error Failure.nilDereference) := by
    intro m v hm hv
    rw [statusReply_eq lowerTable page realName m v hm hv]
    cases pick page "1".toList (GoMap.get? m "site1".toList) <;>
    cases pick page "2".toList (GoMap.get? m "site2".toList) <;>
    cases pick page "3".toList (GoMap.get? m "site3".toList) <;>
    simp [deref, bind, Except.bind, pure, Except.pure]
  have hgood : ∀ (m : GoMap) (n site : GoString),
      pick page n (m.get? site) ≠ none ↔
        (m.get? site = some "blue".toList ∨ m.get? site = some "green".toList) := by
    intro m n site
    rw [Ne, pick_eq_none_iff, not_and_or, not_not, not_not]
  refine ⟨?_, ?_, ?_⟩
  · rw [(hreply result visit hwf hvisit).1, hgood, hgood, hgood]
    constructor
    · intro h site hsite
      simp only [List.mem_cons, List.mem_singleton, List.not_mem_nil, or_false] at hsite
      rcases hsite with rfl | rfl | rfl
      · exact h.1
      · exact h.2.1
      · exact h.2.2
    · intro h
      exact ⟨h _ (by simp), h _ (by simp), h _ (by simp)⟩
  · rintro ⟨site, hsite, hbad⟩
    apply (hreply result visit hwf hvisit).2
    simp only [List.mem_cons, List.mem_singleton, List.not_mem_nil, or_false] at hsite
    rcases hsite with rfl | rfl | rfl
    · exact Or.inl ((pick_eq_none_iff _ _ _).2 hbad)
    · exact Or.inr (Or.inl ((pick_eq_none_iff _ _ _).2 hbad))
    · exact Or.inr (Or.inr ((pick_eq_none_iff _ _ _).2 hbad))
  · intro arrival visit' harr hvis
    obtain ⟨merged, hcol, hmwf, hgreen⟩ := collect_stub arrival harr
    have := (hreply merged (visit' merged) hmwf (hvis merged)).1
    rw [hgood, hgood, hgood] at this
    obtain ⟨text, htext⟩ := this.2
      ⟨Or.inr (hgreen _ (by simp)), Or.inr (hgreen _ (by simp)), Or.inr (hgreen _ (by simp))⟩
    exact ⟨merged, text, hcol, htext⟩

/-- The map that carries `red` for `site2`, visited in the order site3, site2,
site1: the reply is not built. -/
theorem statusReply_completes_iff_witness :
    statusReply id (fun _ => resBody) "Ann".toList
        [("site3".toList, "blue".toList), ("site2".toList, "red".toList),
          ("site1".toList, "green".toList)] =
      Except.error Failure.nilDereference :=
  (statusReply_completes_iff id (fun _ => resBody) "Ann".toList
    [("site1".toList, "green".toList), ("site2".toList, "red".toList),
      ("site3".toList, "blue".toList)]
    [("site3".toList, "blue".toList), ("site2".toList, "red".toList),
      ("site1".toList, "green".toList)]
    (by unfold GoMap.WF GoMap.keys; decide) (by decide)).2.1
    ⟨"site2".toList, by decide, by decide⟩

/-- The map without `site3`: building the reply stops at the unset pointer, it
does not complete with a line for the region: as stated, C2 fails. -/
theorem statusReply_without_site3 :
    statusReply id (fun _ => resBody) "Ann".toList
        [("site1".toList, "green".toList), ("site2".toList, "blue".toList)] =
      Except.error Failure.nilDereference := by
  rfl

/-- A pattern whose first character does not recur in it cannot start inside a
nonempty text `u` that does not contain it and finish inside a following copy
of itself. -/
theorem no_straddle (a : Char) (rest u X : GoString) (ha : a ∉ rest) (hu : u ≠ [])
    (hno : ¬ (a :: rest) <:+: u) : ¬ (a :: rest) <+: u ++ ((a :: rest) ++ X) := by
  intro hp
  have hup : u <+: u ++ ((a :: rest) ++ X) := List.prefix_append _ _
  rcases Nat.le_total (a :: rest).length u.length with hle | hle
  · exact hno (List.prefix_of_prefix_length_le hp hup hle).isInfix
  · obtain ⟨w, hw⟩ := List.prefix_of_prefix_length_le hup hp hle
    have hp' : u ++ w <+: u ++ ((a :: rest) ++ X) := by rw [hw]; exact hp
    have hw' : w <+: (a :: rest) ++ X := (List.prefix_append_right_inj u).1 hp'
    cases w with
    | nil =>
      apply hno
      rw [← hw, List.append_nil]
    | cons c w' =>
      have hc : c = a := by
        simp only [List.cons_append] at hw'
        exact (List.cons_prefix_cons.1 hw').1
      subst hc
      cases u with
      | nil => exact hu rfl
      | cons b u' =>
        simp only [List.cons_append, List.cons.injEq] at hw
        apply ha
        rw [← hw.2]
        simp

/-- A run of literal characters matches exactly when it is a prefix of the text. -/
theorem backtrack_runes (lits : GoString) (prog : List Inst) (s : GoString) (t : Thread) :
    backtrack (lits.map Inst.rune ++ prog) s t =
      if lits <+: s then
        backtrack prog (s.drop lits.length) ⟨t.pos + lits.length, t.capStart, t.capEnd⟩
      else none := by
  induction lits generalizing s t with
  | nil => simp
  | cons c lits ih =>
    cases s with
    | nil => simp [backtrack]
    | cons d s =>
      simp only [List.map_cons, List.cons_append, backtrack, List.cons_prefix_cons,
        List.length_cons, List.drop_succ_cons]
      by_cases hdc : d = c
      · subst hdc
        simp only [if_true, true_and]
        refine (ih s _).trans ?_
        by_cases hp : lits <+: s
        · simp only [if_pos hp, Nat.add_assoc, Nat.add_comm 1]
        · simp only [if_neg hp]
      · have hcd : ¬ c = d := fun e => hdc e.symm
        simp only [if_neg hdc, hcd, false_and, if_false]

/-- The tail `\s*<br>` of the pattern: the greedy star takes the whole run of
white space, and the match succeeds exactly when `<br>` follows the run. -/
theorem tail_eq (s : GoString) (t : Thread) :
    starLoop isSpaceClass true (backtrack ("<br>".toList.map Inst.rune)) s t =
      if "<br>".toList <+: s.dropWhile isSpaceClass then
        some ⟨t.pos + (s.takeWhile isSpaceClass).length + 4, t.capStart, t.capEnd⟩
      else none := by
  have hk : ∀ (s : GoString) (t : Thread),
      backtrack ("<br>".toList.map Inst.rune) s t =
        if "<br>".toList <+: s then some ⟨t.pos + 4, t.capStart, t.capEnd⟩ else none := by
    intro s t
    have := backtrack_runes "<br>".toList [] s t
    simp only [List.append_nil] at this
    rw [this]
    rfl
  induction s generalizing t with
  | nil => simp only [starLoop, hk, List.dropWhile_nil, List.takeWhile_nil, List.length_nil,
      Nat.add_zero]
  | cons c s ih =>
    by_cases hc : isSpaceClass c = true
    · have hfail : backtrack ("<br>".toList.map Inst.rune) (c :: s) t = none := by
        rw [hk, if_neg]
        intro hp
        have : c = '<' := by
          have := (List.cons_prefix_cons.1 (show ('<' :: "br>".toList) <+: c :: s from hp)).1
          exact this.symm
        subst this
        exact absurd hc (by decide)
      simp only [starLoop, hc, if_true, ih, hfail, List.dropWhile_cons_of_pos hc,
        List.takeWhile_cons_of_pos hc, List.length_cons]
      split <;> simp [Option.orElse, Nat.add_assoc, Nat.add_comm 1]
    · simp only [starLoop, hc, hk, List.dropWhile_cons_of_neg hc, List.takeWhile_cons_of_neg hc,
        List.length_nil, Nat.add_zero]
      simp

/-- A lazy star moves over a stretch of the text at no position of which the
continuation succeeds. -/
theorem lazy_skip (cls : Char → Bool) (k : GoString → Thread → Option Thread)
    (v rest : GoString) (t : Thread)
    (hcls : ∀ c ∈ v, cls c = true)
    (hfail : ∀ u, u ≠ [] → u <:+ v → ∀ t', k (u ++ rest) t' = none) :
    starLoop cls false k (v ++ rest) t =
      starLoop cls false k rest ⟨t.pos + v.length, t.capStart, t.capEnd⟩ := by
  induction v generalizing t with
  | nil => rfl
  | cons c v ih =>
    have hc : cls c = true := hcls c (List.mem_cons_self _ _)
    have h0 : k (c :: v ++ rest) t = none := by
      have := hfail (c :: v) (by simp) (List.suffix_refl _) t
      simpa using this
    have hstep : starLoop cls false k (c :: v ++ rest) t =
        starLoop cls false k (v ++ rest) ⟨t.pos + 1, t.capStart, t.capEnd⟩ := by
      simp only [List.cons_append] at h0
      show starLoop cls false k (c :: (v ++ rest)) t = _
      rw [starLoop, if_pos hc, if_neg (by decide), h0]
      rfl
    rw [hstep, ih]
    · simp only [List.length_cons, Nat.add_assoc, Nat.add_comm 1]
    · intro c' hc'
      exact hcls c' (List.mem_cons_of_mem _ hc')
    · intro u hu hsuf t'
      exact hfail u hu (hsuf.trans (List.suffix_cons _ _)) t'

/-- A lazy star stops where the continuation succeeds. -/
theorem lazy_stop (cls : Char → Bool) (k : GoString → Thread → Option Thread)
    (rest : GoString) (t r : Thread) (h : k rest t = some r) :
    starLoop cls false k rest t = some r := by
  cases rest with
  | nil => simpa [starLoop] using h
  | cons c rest =>
    simp only [starLoop, h, Bool.false_eq_true, if_false]
    split <;> rfl

/-- A greedy star in front of a character outside its class takes nothing. -/
theorem greedy_stop (cls : Char → Bool) (k : GoString → Thread → Option Thread)
    (s : GoString) (t : Thread) (h : ∀ c, s.head? = some c → cls c = false) :
    starLoop cls true k s t = k s t := by
  cases s with
  | nil => rfl
  | cons c s =>
    have hc : cls c = false := h c rfl
    simp only [starLoop, hc, Bool.false_eq_true, if_false]

/-- The pattern is the label followed by the value part. -/
theorem buildRe_eq : buildRe = "Build:".toList.map Inst.rune ++ valueRe := rfl

/-- Inside a clean value the rest of the pattern, `\s*<br>`, does not match. -/
theorem close_fails (v u rest : GoString) (hv : CleanValue v) (hu : u ≠ []) (hsuf : u <:+ v)
    (t : Thread) :
    backtrack [.capClose, .star isSpaceClass true, .rune '<', .rune 'b', .rune 'r', .rune '>']
      (u ++ ("<br>".toList ++ rest)) t = none := by
  have hlast : ∀ c, u.getLast? = some c → isSpaceClass c = false := by
    intro c hc
    apply hv.noTrailing c
    obtain ⟨p, rfl⟩ := hsuf
    rw [List.getLast?_append_of_ne_nil _ hu]
    exact hc
  -- the white space in front of `u` is dropped, something of `u` stays
  have hdrop : List.dropWhile isSpaceClass u ≠ [] := by
    intro hnil
    rw [List.dropWhile_eq_nil_iff] at hnil
    obtain ⟨c, hc⟩ : ∃ c, u.getLast? = some c := by
      cases h : u.getLast? with
      | none => exact absurd (List.getLast?_eq_none_iff.1 h) hu
      | some c => exact ⟨c, rfl⟩
    have := hnil c (List.mem_of_getLast?_eq_some hc)
    rw [hlast c hc] at this
    exact absurd this (by decide)
  have hsuf' : List.dropWhile isSpaceClass u <:+ v :=
    (List.dropWhile_suffix _).trans hsuf
  have hno : ¬ "<br>".toList <:+: List.dropWhile isSpaceClass u := fun h =>
    hv.noBr (h.trans hsuf'.isInfix)
  have hstr := no_straddle '<' "br>".toList (List.dropWhile isSpaceClass u) rest (by decide)
    hdrop hno
  have hd : List.dropWhile isSpaceClass (u ++ ("<br>".toList ++ rest)) =
      List.dropWhile isSpaceClass u ++ ("<br>".toList ++ rest) := by
    rw [List.dropWhile_append]
    have : (List.dropWhile isSpaceClass u).isEmpty = false := by
      cases h : List.dropWhile isSpaceClass u with
      | nil => exact absurd h hdrop
      | cons _ _ => rfl
    rw [this]
    rfl
  show starLoop isSpaceClass true (backtrack ("<br>".toList.map Inst.rune)) _ _ = none
  rw [tail_eq, hd]
  exact if_neg hstr

/-- The match at `Build: v<br>` for a clean value `v`: group 1 is `v`. -/
theorem match_value (v rest : GoString) (hv : CleanValue v) :
    backtrack buildRe ("Build: ".toList ++ (v ++ ("<br>".toList ++ rest))) ⟨0, 0, 0⟩ =
      some ⟨7 + v.length + 4, 7, 7 + v.length⟩ := by
  have hpre : "Build:".toList <+: "Build: ".toList ++ (v ++ ("<br>".toList ++ rest)) :=
    ⟨' ' :: (v ++ ("<br>".toList ++ rest)), rfl⟩
  rw [buildRe_eq, backtrack_runes, if_pos hpre]
  show starLoop isSpaceClass true
      (backtrack [.capOpen, .star isDotClass false, .capClose, .star isSpaceClass true,
        .rune '<', .rune 'b', .rune 'r', .rune '>'])
      (' ' :: (v ++ ("<br>".toList ++ rest))) ⟨6, 0, 0⟩ = _
  -- the value or, when it is empty, the terminator follows the blank
  have hhead : ∀ c, (v ++ ("<br>".toList ++ rest)).head? = some c → isSpaceClass c = false := by
    intro c hc
    cases v with
    | nil =>
      have : c = '<' := by simpa using hc.symm
      subst this
      decide
    | cons d v => exact hv.noLeading c (by simpa using hc)
  have hclose : backtrack
      [.capClose, .star isSpaceClass true, .rune '<', .rune 'b', .rune 'r', .rune '>']
      ("<br>".toList ++ rest) ⟨7 + v.length, 7, 0⟩ = some ⟨7 + v.length + 4, 7, 7 + v.length⟩ := by
    show starLoop isSpaceClass true (backtrack ("<br>".toList.map Inst.rune)) _ _ = _
    rw [tail_eq]
    have h1 : List.dropWhile isSpaceClass ("<br>".toList ++ rest) = "<br>".toList ++ rest := rfl
    have h2 : List.takeWhile isSpaceClass ("<br>".toList ++ rest) = [] := rfl
    rw [h1, h2, if_pos (List.prefix_append _ _)]
    rfl
  have hlazy : starLoop isDotClass false
      (backtrack [.capClose, .star isSpaceClass true, .rune '<', .rune 'b', .rune 'r', .rune '>'])
      (v ++ ("<br>".toList ++ rest)) ⟨7, 7, 0⟩ = some ⟨7 + v.length + 4, 7, 7 + v.length⟩ := by
    rw [lazy_skip]
    · exact lazy_stop _ _ _ _ _ hclose
    · intro c hc
      have : c ≠ '\n' := fun e => hv.noNewline (e ▸ hc)
      simp [isDotClass, this]
    · intro u hu hsuf t'
      exact close_fails v u rest hv hu hsuf t'
  have hgreedy : starLoop isSpaceClass true
      (backtrack [.capOpen, .star isDotClass false, .capClose, .star isSpaceClass true,
        .rune '<', .rune 'b', .rune 'r', .rune '>'])
      (v ++ ("<br>".toList ++ rest)) ⟨7, 0, 0⟩ = some ⟨7 + v.length + 4, 7, 7 + v.length⟩ := by
    rw [greedy_stop _ _ _ _ hhead]
    exact hlazy
  rw [starLoop, if_pos (by decide), if_pos rfl]
  show (starLoop isSpaceClass true _ (v ++ ("<br>".toList ++ rest)) ⟨7, 0, 0⟩).orElse _ = _
  rw [hgreedy]
  rfl

/-- The scan passes over the characters of the previous match. -/
theorem findAllFrom_skip (re : List Inst) (xs ys : GoString) :
    findAllFrom re xs.length (xs ++ ys) = findAllFrom re 0 ys := by
  induction xs with
  | nil => rfl
  | cons x xs ih =>
    simp only [List.length_cons, List.cons_append, findAllFrom]
    exact ih

/-- The scan passes over a stretch at no position of which the pattern matches. -/
theorem findAllFrom_no_match (re : List Inst) (pre rest : GoString)
    (h : ∀ u, u ≠ [] → u <:+ pre → backtrack re (u ++ rest) ⟨0, 0, 0⟩ = none) :
    findAllFrom re 0 (pre ++ rest) = findAllFrom re 0 rest := by
  induction pre with
  | nil => rfl
  | cons c pre ih =>
    have h0 := h (c :: pre) (by simp) (List.suffix_refl _)
    simp only [List.cons_append] at h0 ⊢
    rw [findAllFrom, h0]
    exact ih fun u hu hsuf => h u hu (hsuf.trans (List.suffix_cons _ _))

/-- The pattern matches only at an occurrence of the label. -/
theorem backtrack_needs_label (s : GoString) (t : Thread) (h : ¬ "Build:".toList <+: s) :
    backtrack buildRe s t = none := by
  rw [buildRe_eq, backtrack_runes, if_neg h]

/-- Without the label there is no match. -/
theorem findAll_of_no_label (input : GoString) (h : ¬ "Build:".toList <:+: input) :
    FindAllStringSubmatch buildRe input = [] := by
  have := findAllFrom_no_match buildRe input [] (by
    intro u _ hsuf
    apply backtrack_needs_label
    rw [List.append_nil]
    intro hp
    exact h (hp.isInfix.trans hsuf.isInfix))
  rw [List.append_nil] at this
  exact this

/-- The matches of a text whose first label is followed by a clean value: this
one, then those of the rest. -/
theorem findAll_step (pre v rest : GoString) (hpre : ¬ "Build:".toList <:+: pre)
    (hv : CleanValue v) :
    FindAllStringSubmatch buildRe (pre ++ ("Build: ".toList ++ (v ++ ("<br>".toList ++ rest)))) =
      ["Build: ".toList ++ (v ++ "<br>".toList), v] :: FindAllStringSubmatch buildRe rest := by
  unfold FindAllStringSubmatch
  rw [findAllFrom_no_match]
  · show findAllFrom buildRe 0 ('B' :: ("uild: ".toList ++ (v ++ ("<br>".toList ++ rest)))) = _
    rw [findAllFrom]
    have hm := match_value v rest hv
    have hm' : backtrack buildRe ('B' :: ("uild: ".toList ++ (v ++ ("<br>".toList ++ rest))))
        ⟨0, 0, 0⟩ = some ⟨7 + v.length + 4, 7, 7 + v.length⟩ := hm
    rw [hm']
    simp only
    have hskip := findAllFrom_skip buildRe ("uild: ".toList ++ (v ++ "<br>".toList)) rest
    have hlen : ("uild: ".toList ++ (v ++ "<br>".toList)).length = 7 + v.length + 4 - 1 := by
      simp only [List.length_append]
      have h1 : "uild: ".toList.length = 6 := rfl
      have h2 : "<br>".toList.length = 4 := rfl
      omega
    rw [hlen] at hskip
    simp only [List.append_assoc] at hskip
    rw [hskip]
    congr 1
    have e1 : 'B' :: ("uild: ".toList ++ (v ++ ("<br>".toList ++ rest))) =
        ("Build: ".toList ++ (v ++ "<br>".toList)) ++ rest := by
      simp only [List.append_assoc]
      rfl
    have e2 : 'B' :: ("uild: ".toList ++ (v ++ ("<br>".toList ++ rest))) =
        "Build: ".toList ++ (v ++ ("<br>".toList ++ rest)) := rfl
    have l1 : ("Build: ".toList ++ (v ++ "<br>".toList)).length = 7 + v.length + 4 := by
      simp only [List.length_append]
      have h1 : "Build: ".toList.length = 7 := rfl
      have h2 : "<br>".toList.length = 4 := rfl
      omega
    have l2 : "Build: ".toList.length = 7 := rfl
    have l3 : v.length = 7 + v.length - 7 := by omega
    unfold submatches
    simp only
    rw [List.cons.injEq, List.cons.injEq]
    refine ⟨?_, ?_, rfl⟩
    · rw [e1]
      exact List.take_left' l1
    · rw [e2, List.drop_left' l2]
      exact List.take_left' l3
  · intro u hu hsuf
    apply backtrack_needs_label
    have hno : ¬ "Build:".toList <:+: u := fun h => hpre (h.trans hsuf.isInfix)
    have := no_straddle 'B' "uild:".toList u (' ' :: (v ++ ("<br>".toList ++ rest)))
      (by decide) hu hno
    exact this

/-- The loop of `matchRegEx` keeps group 1 of the last match. -/
theorem matchRegEx_of_matches (input : GoString) :
    matchRegEx input =
      match (FindAllStringSubmatch buildRe input).getLast? with
      | some v => v.getD 1 []
      | none => [] := by
  unfold matchRegEx
  simp only
  generalize FindAllStringSubmatch buildRe input = ms
  induction ms using List.reverseRecOn with
  | nil => rfl
  | append_singleton ms m _ =>
    rw [List.foldl_append, List.getLast?_append]
    rfl

/-- C5: for a value `v` without leading or trailing white space, without newline
and without `<br>`, surrounded by text without `Build:`, `matchRegEx` returns
exactly `v`. -/
theorem matchRegEx_value (pre v suf : GoString)
    (hpre : ¬ "Build:".toList <:+: pre) (hsuf : ¬ "Build:".toList <:+: suf)
    (hlead : ∀ c ∈ v.head?, isSpaceClass c = false)
    (htrail : ∀ c ∈ v.getLast?, isSpaceClass c = false)
    (hnl : '\n' ∉ v) (hbr : ¬ "<br>".toList <:+: v) :
    matchRegEx (pre ++ "Build: ".toList ++ v ++ "<br>".toList ++ suf) = v := by
  have hv : CleanValue v := ⟨fun c hc => hlead c hc, fun c hc => htrail c hc, hnl, hbr⟩
  have hall := findAll_step pre v suf hpre hv
  rw [findAll_of_no_label suf hsuf] at hall
  rw [matchRegEx_of_matches]
  simp only [List.append_assoc]
  rw [hall]
  rfl

/-- The example of the specification: the value
`20210314.1.2730-new-cool-ui-feature` between the lines of the page of the
source. -/
theorem matchRegEx_value_witness :
    matchRegEx ("SUCCESS: ServerName\n\t".toList ++ "Build: ".toList
        ++ "20210314.1.2730-new-cool-ui-feature".toList ++ "<br>".toList
        ++ "\n\tServer IP: 172.0.0.1".toList)
      = "20210314.1.2730-new-cool-ui-feature".toList :=
  matchRegEx_value "SUCCESS: ServerName\n\t".toList "20210314.1.2730-new-cool-ui-feature".toList
    "\n\tServer IP: 172.0.0.1".toList
    (by rw [← contains_iff]; decide) (by rw [← contains_iff]; decide)
    (by decide) (by decide) (by decide) (by rw [← contains_iff]; decide)

/-- C6: `matchRegEx` is a total function, and on every text without the marker
`Build:` it returns the empty string. -/
theorem matchRegEx_no_label (input : GoString) (h : ¬ "Build:".toList <:+: input) :
    matchRegEx input = [] := by
  rw [matchRegEx_of_matches, findAll_of_no_label input h]
  rfl

/-- A page whose label is written `build:`. -/
theorem matchRegEx_no_label_witness :
    matchRegEx "SUCCESS: ServerName\n\tbuild: 7<br>\n\tServer IP: 172.0.0.1".toList = [] :=
  matchRegEx_no_label _ (by rw [← contains_iff]; decide)

/-- On `Build: a<br>Build: b<br>` the matches are `a` then `b`, and `matchRegEx`
returns `b`, not the first value `a`: as stated, C7 fails. -/
theorem matchRegEx_not_first :
    FindAllStringSubmatch buildRe "Build: a<br>Build: b<br>".toList =
      [["Build: a<br>".toList, "a".toList], ["Build: b<br>".toList, "b".toList]] ∧
    matchRegEx "Build: a<br>Build: b<br>".toList = "b".toList ∧
    matchRegEx "Build: a<br>Build: b<br>".toList ≠ "a".toList := by
  decide

/-- Two occurrences: the value of the second is returned. -/
theorem matchRegEx_two_occurrences (pre v₁ mid v₂ suf : GoString)
    (hpre : ¬ "Build:".toList <:+: pre) (hmid : ¬ "Build:".toList <:+: mid)
    (hsuf : ¬ "Build:".toList <:+: suf) (h₁ : CleanValue v₁) (h₂ : CleanValue v₂) :
    matchRegEx (pre ++ "Build: ".toList ++ v₁ ++ "<br>".toList ++ mid
      ++ "Build: ".toList ++ v₂ ++ "<br>".toList ++ suf) = v₂ := by
  have hall := findAll_step pre v₁ (mid ++ ("Build: ".toList ++ (v₂ ++ ("<br>".toList ++ suf))))
    hpre h₁
  rw [findAll_step mid v₂ suf hmid h₂, findAll_of_no_label suf hsuf] at hall
  rw [matchRegEx_of_matches]
  simp only [List.append_assoc]
  rw [hall]
  rfl

/-- Star success, any flavour: the star consumed characters of its class and
the continuation succeeded behind them. -/
theorem star_some (cls : Char → Bool) (greedy : Bool) (k : GoString → Thread → Option Thread)
    (s : GoString) (t r : Thread) (h : starLoop cls greedy k s t = some r) :
    ∃ ws s', s = ws ++ s' ∧ (∀ c ∈ ws, cls c = true) ∧
      k s' ⟨t.pos + ws.length, t.capStart, t.capEnd⟩ = some r := by
  induction s generalizing t with
  | nil =>
    exact ⟨[], [], rfl, by simp, by simpa [starLoop] using h⟩
  | cons c s ih =>
    by_cases hc : cls c = true
    · have hcase : starLoop cls greedy k s ⟨t.pos + 1, t.capStart, t.capEnd⟩ = some r ∨
          k (c :: s) t = some r := by
        rw [starLoop, if_pos hc] at h
        cases greedy with
        | true =>
          rw [if_pos rfl] at h
          cases h1 : starLoop cls true k s ⟨t.pos + 1, t.capStart, t.capEnd⟩ with
          | some r' =>
            have : starLoop cls true k s { t with pos := t.pos + 1 } = some r' := h1
            rw [this] at h
            left; exact h
          | none =>
            have : starLoop cls true k s { t with pos := t.pos + 1 } = none := h1
            rw [this] at h
            right; exact h
        | false =>
          rw [if_neg (by decide)] at h
          cases h1 : k (c :: s) t with
          | some r' =>
            rw [h1] at h
            right; exact h
          | none =>
            rw [h1] at h
            left; exact h
      rcases hcase with h1 | h1
      · obtain ⟨ws, s', hs, hws, hk⟩ := ih _ h1
        refine ⟨c :: ws, s', by rw [hs]; rfl, ?_, ?_⟩
        · intro d hd
          rcases List.mem_cons.1 hd with rfl | hd
          · exact hc
          · exact hws d hd
        · simpa [Nat.add_assoc, Nat.add_comm 1] using hk
      · exact ⟨[], c :: s, rfl, by simp, by simpa using h1⟩
    · rw [starLoop, if_neg hc] at h
      exact ⟨[], c :: s, rfl, by simp, by simpa using h⟩

/-- A pattern that starts inside a text `u` which does not contain it
ends inside what follows `u`. -/
theorem prefix_straddle (pat u Y : GoString) (hno : ¬ pat <:+: u)
    (hp : pat <+: u ++ Y) : ∃ w, w ≠ [] ∧ w <+: Y ∧ u ++ w = pat := by
  have hup : u <+: u ++ Y := List.prefix_append _ _
  rcases Nat.le_total pat.length u.length with hle | hle
  · exact absurd (List.prefix_of_prefix_length_le hp hup hle).isInfix hno
  · obtain ⟨w, hw⟩ := List.prefix_of_prefix_length_le hup hp hle
    have hp' : u ++ w <+: u ++ Y := by rw [hw]; exact hp
    refine ⟨w, ?_, (List.prefix_append_right_inj u).1 hp', hw⟩
    rintro rfl
    apply hno
    rw [← hw, List.append_nil]

/-- The terminator does not start inside a clean value and end in the white
space or the terminator behind it. -/
theorem br_not_straddling (u ws₂ rest : GoString) (hu : u ≠ [])
    (hno : ¬ "<br>".toList <:+: u) (hws : ∀ c ∈ ws₂, isSpaceClass c = true) :
    ¬ "<br>".toList <+: u ++ (ws₂ ++ ("<br>".toList ++ rest)) := by
  intro hp
  obtain ⟨w, hw, hwY, huw⟩ := prefix_straddle _ u _ hno hp
  -- the first character of `w` is one of `b`, `r`, `>`
  have hhead : ∃ c w', w = c :: w' ∧ (c = 'b' ∨ c = 'r' ∨ c = '>') := by
    have h4 : u ++ w = ['<', 'b', 'r', '>'] := huw
    rcases u with _ | ⟨a, _ | ⟨b, _ | ⟨c, _ | ⟨d, u⟩⟩⟩⟩
    · exact absurd rfl hu
    · simp only [List.singleton_append, List.cons.injEq] at h4
      exact ⟨'b', _, h4.2, Or.inl rfl⟩
    · simp only [List.cons_append, List.nil_append, List.cons.injEq] at h4
      exact ⟨'r', _, h4.2.2, Or.inr (Or.inl rfl)⟩
    · simp only [List.cons_append, List.nil_append, List.cons.injEq] at h4
      exact ⟨'>', _, h4.2.2.2, Or.inr (Or.inr rfl)⟩
    · simp only [List.cons_append, List.cons.injEq] at h4
      have h5 := h4.2.2.2.2
      have : w = [] := (List.append_eq_nil.1 h5).2
      exact absurd this hw
  obtain ⟨c, w', rfl, hc⟩ := hhead
  cases ws₂ with
  | nil =>
    have : c = '<' := (List.cons_prefix_cons.1 (show c :: w' <+: '<' :: ("br>".toList ++ rest)
      from hwY)).1
    subst this
    rcases hc with h | h | h <;> exact absurd h (by decide)
  | cons d ws₂ =>
    have hcd : c = d := (List.cons_prefix_cons.1 (show c :: w' <+: d :: _ from hwY)).1
    have hd : isSpaceClass d = true := hws d (List.mem_cons_self _ _)
    rw [← hcd] at hd
    rcases hc with h | h | h <;> subst h <;> exact absurd hd (by decide)

/-- A greedy star takes a run of its class when the search succeeds behind it. -/
theorem greedy_take (cls : Char → Bool) (k : GoString → Thread → Option Thread)
    (ws s : GoString) (t r : Thread) (hws : ∀ c ∈ ws, cls c = true)
    (h : starLoop cls true k s ⟨t.pos + ws.length, t.capStart, t.capEnd⟩ = some r) :
    starLoop cls true k (ws ++ s) t = some r := by
  induction ws generalizing t with
  | nil => simpa using h
  | cons c ws ih =>
    have hc : cls c = true := hws c (List.mem_cons_self _ _)
    have hrec : starLoop cls true k (ws ++ s) ⟨t.pos + 1, t.capStart, t.capEnd⟩ = some r := by
      apply ih
      · intro d hd
        exact hws d (List.mem_cons_of_mem _ hd)
      · simpa [Nat.add_assoc, Nat.add_comm 1] using h
    show starLoop cls true k (c :: (ws ++ s)) t = some r
    rw [starLoop, if_pos hc, if_pos rfl]
    have : starLoop cls true k (ws ++ s) { t with pos := t.pos + 1 } = some r := hrec
    rw [this]
    rfl

/-- Inside a clean value the rest of the pattern, `\s*<br>`, does not match,
whatever white space stands between the value and the terminator. -/
theorem close_fails_ws (v u ws₂ rest : GoString) (hv : CleanValue v) (hu : u ≠ [])
    (hsuf : u <:+ v) (hws : ∀ c ∈ ws₂, isSpaceClass c = true) (t : Thread) :
    backtrack [.capClose, .star isSpaceClass true, .rune '<', .rune 'b', .rune 'r', .rune '>']
      (u ++ (ws₂ ++ ("<br>".toList ++ rest))) t = none := by
  have hlast : ∀ c, u.getLast? = some c → isSpaceClass c = false := by
    intro c hc
    apply hv.noTrailing c
    obtain ⟨p, rfl⟩ := hsuf
    rw [List.getLast?_append_of_ne_nil _ hu]
    exact hc
  have hdrop : List.dropWhile isSpaceClass u ≠ [] := by
    intro hnil
    rw [List.dropWhile_eq_nil_iff] at hnil
    obtain ⟨c, hc⟩ : ∃ c, u.getLast? = some c := by
      cases h : u.getLast? with
      | none => exact absurd (List.getLast?_eq_none_iff.1 h) hu
      | some c => exact ⟨c, rfl⟩
    have := hnil c (List.mem_of_getLast?_eq_some hc)
    rw [hlast c hc] at this
    exact absurd this (by decide)
  have hsuf' : List.dropWhile isSpaceClass u <:+ v :=
    (List.dropWhile_suffix _).trans hsuf
  have hno : ¬ "<br>".toList <:+: List.dropWhile isSpaceClass u := fun h =>
    hv.noBr (h.trans hsuf'.isInfix)
  have hstr := br_not_straddling (List.dropWhile isSpaceClass u) ws₂ rest hdrop hno hws
  have hd : List.dropWhile isSpaceClass (u ++ (ws₂ ++ ("<br>".toList ++ rest))) =
      List.dropWhile isSpaceClass u ++ (ws₂ ++ ("<br>".toList ++ rest)) := by
    rw [List.dropWhile_append]
    have : (List.dropWhile isSpaceClass u).isEmpty = false := by
      cases h : List.dropWhile isSpaceClass u with
      | nil => exact absurd h hdrop
      | cons _ _ => rfl
    rw [this]
    rfl
  show starLoop isSpaceClass true (backtrack ("<br>".toList.map Inst.rune)) _ _ = none
  rw [tail_eq, hd]
  exact if_neg hstr

/-- The match at an occurrence whose value is clean, when the value is not
empty or no white space stands in front of the terminator. -/
theorem match_occurrence_pos (ws₁ v ws₂ rest : GoString)
    (hws₁ : ∀ c ∈ ws₁, isSpaceClass c = true) (hv : CleanValue v)
    (hws₂ : ∀ c ∈ ws₂, isSpaceClass c = true) (hne : v ≠ [] ∨ ws₂ = []) :
    backtrack buildRe
        ("Build:".toList ++ (ws₁ ++ (v ++ (ws₂ ++ ("<br>".toList ++ rest))))) ⟨0, 0, 0⟩ =
      some ⟨6 + ws₁.length + v.length + ws₂.length + 4, 6 + ws₁.length,
        6 + ws₁.length + v.length⟩ := by
  rw [buildRe_eq, backtrack_runes, if_pos (List.prefix_append _ _)]
  have hdrop : List.drop "Build:".toList.length
      ("Build:".toList ++ (ws₁ ++ (v ++ (ws₂ ++ ("<br>".toList ++ rest))))) =
      ws₁ ++ (v ++ (ws₂ ++ ("<br>".toList ++ rest))) := List.drop_left _ _
  rw [hdrop]
  show starLoop isSpaceClass true
      (backtrack [.capOpen, .star isDotClass false, .capClose, .star isSpaceClass true,
        .rune '<', .rune 'b', .rune 'r', .rune '>'])
      (ws₁ ++ (v ++ (ws₂ ++ ("<br>".toList ++ rest)))) ⟨6, 0, 0⟩ = _
  have hhead : ∀ c, (v ++ (ws₂ ++ ("<br>".toList ++ rest))).head? = some c →
      isSpaceClass c = false := by
    intro c hc
    cases v with
    | nil =>
      rcases hne with h | h
      · exact absurd rfl h
      · subst h
        have : c = '<' := by simpa using hc.symm
        subst this
        decide
    | cons d v => exact hv.noLeading c (by simpa using hc)
  have hclose : backtrack
      [.capClose, .star isSpaceClass true, .rune '<', .rune 'b', .rune 'r', .rune '>']
      (ws₂ ++ ("<br>".toList ++ rest)) ⟨6 + ws₁.length + v.length, 6 + ws₁.length, 0⟩ =
      some ⟨6 + ws₁.length + v.length + ws₂.length + 4, 6 + ws₁.length,
        6 + ws₁.length + v.length⟩ := by
    show starLoop isSpaceClass true (backtrack ("<br>".toList.map Inst.rune)) _ _ = _
    rw [tail_eq]
    have h0 : List.dropWhile isSpaceClass ("<br>".toList ++ rest) = "<br>".toList ++ rest := rfl
    have h0' : List.takeWhile isSpaceClass ("<br>".toList ++ rest) = [] := rfl
    have h1 : List.dropWhile isSpaceClass (ws₂ ++ ("<br>".toList ++ rest)) =
        "<br>".toList ++ rest := by
      rw [List.dropWhile_append_of_pos hws₂, h0]
    have h2 : List.takeWhile isSpaceClass (ws₂ ++ ("<br>".toList ++ rest)) = ws₂ := by
      rw [List.takeWhile_append_of_pos hws₂, h0', List.append_nil]
    rw [h1, h2, if_pos (List.prefix_append _ _)]
  have hlazy : starLoop isDotClass false
      (backtrack [.capClose, .star isSpaceClass true, .rune '<', .rune 'b', .rune 'r', .rune '>'])
      (v ++ (ws₂ ++ ("<br>".toList ++ rest))) ⟨6 + ws₁.length, 6 + ws₁.length, 0⟩ =
      some ⟨6 + ws₁.length + v.length + ws₂.length + 4, 6 + ws₁.length,
        6 + ws₁.length + v.length⟩ := by
    rw [lazy_skip]
    · exact lazy_stop _ _ _ _ _ hclose
    · intro c hc
      have : c ≠ '\n' := fun e => hv.noNewline (e ▸ hc)
      simp [isDotClass, this]
    · intro u hu hsuf t'
      exact close_fails_ws v u ws₂ rest hv hu hsuf hws₂ t'
  apply greedy_take _ _ _ _ _ _ hws₁
  rw [greedy_stop _ _ _ _ hhead]
  exact hlazy

/-- The length of an occurrence. -/
theorem occurrence_length (ws₁ v ws₂ : GoString) :
    (occurrence ws₁ v ws₂).length = 6 + ws₁.length + v.length + ws₂.length + 4 := by
  unfold occurrence
  simp only [List.length_append]
  have h1 : "Build:".toList.length = 6 := rfl
  have h2 : "<br>".toList.length = 4 := rfl
  omega

/-- An occurrence in front of the rest of a text, spelled out. -/
theorem occurrence_append (ws₁ v ws₂ rest : GoString) :
    occurrence ws₁ v ws₂ ++ rest =
      "Build:".toList ++ (ws₁ ++ (v ++ (ws₂ ++ ("<br>".toList ++ rest)))) := by
  unfold occurrence
  simp only [List.append_assoc]

/-- The match at an occurrence whose value is clean: it covers the occurrence
and group 1 is the value. -/
theorem match_occurrence (ws₁ v ws₂ rest : GoString)
    (hws₁ : ∀ c ∈ ws₁, isSpaceClass c = true) (hv : CleanValue v)
    (hws₂ : ∀ c ∈ ws₂, isSpaceClass c = true) :
    ∃ t, backtrack buildRe (occurrence ws₁ v ws₂ ++ rest) ⟨0, 0, 0⟩ = some t ∧
      t.pos = (occurrence ws₁ v ws₂).length ∧
      submatches (occurrence ws₁ v ws₂ ++ rest) t = [occurrence ws₁ v ws₂, v] := by
  by_cases hvnil : v = []
  · -- with an empty value all the white space goes to the first star
    subst hvnil
    have hall : ∀ c ∈ ws₁ ++ ws₂, isSpaceClass c = true := by
      intro c hc
      rcases List.mem_append.1 hc with h | h
      · exact hws₁ c h
      · exact hws₂ c h
    have hm := match_occurrence_pos (ws₁ ++ ws₂) [] [] rest hall hv (by simp) (Or.inr rfl)
    have hocc : occurrence ws₁ [] ws₂ ++ rest =
        "Build:".toList ++ ((ws₁ ++ ws₂) ++ ([] ++ ([] ++ ("<br>".toList ++ rest)))) := by
      rw [occurrence_append]
      simp only [List.append_assoc, List.nil_append]
    refine ⟨_, by rw [hocc]; exact hm, ?_, ?_⟩
    · rw [occurrence_length]
      simp only [List.length_append, List.length_nil]
      omega
    · unfold submatches
      simp only [List.length_append, List.length_nil, Nat.add_zero, Nat.sub_self, List.take_zero]
      rw [List.cons.injEq]
      refine ⟨?_, rfl⟩
      have hlen : (occurrence ws₁ [] ws₂).length = 6 + (ws₁.length + ws₂.length) + 4 := by
        rw [occurrence_length]
        simp only [List.length_nil]
        omega
      exact List.take_left' hlen
  · have hm := match_occurrence_pos ws₁ v ws₂ rest hws₁ hv hws₂ (Or.inl hvnil)
    refine ⟨_, by rw [occurrence_append]; exact hm, ?_, ?_⟩
    · rw [occurrence_length]
    · unfold submatches
      simp only
      rw [List.cons.injEq, List.cons.injEq]
      refine ⟨List.take_left' (occurrence_length ws₁ v ws₂), ?_, rfl⟩
      have e : occurrence ws₁ v ws₂ ++ rest =
          ("Build:".toList ++ ws₁) ++ (v ++ (ws₂ ++ ("<br>".toList ++ rest))) := by
        rw [occurrence_append]
        simp only [List.append_assoc]
      have l1 : ("Build:".toList ++ ws₁).length = 6 + ws₁.length := by
        simp only [List.length_append]
        rfl
      have l2 : v.length = 6 + ws₁.length + v.length - (6 + ws₁.length) := by omega
      rw [e, List.drop_left' l1]
      exact List.take_left' l2

/-- Where the pattern matches, the text starts with a string of the pattern. -/
theorem backtrack_sound (s : GoString) (t r : Thread) (h : backtrack buildRe s t = some r) :
    StartsWithMatch s := by
  rw [buildRe_eq, backtrack_runes] at h
  by_cases hp : "Build:".toList <+: s
  · rw [if_pos hp] at h
    obtain ⟨s₁, rfl⟩ := hp
    rw [List.drop_left] at h
    obtain ⟨ws₁, s₂, rfl, hws₁, h₂⟩ := star_some _ _ _ _ _ _
      (show starLoop isSpaceClass true
        (backtrack [.capOpen, .star isDotClass false, .capClose, .star isSpaceClass true,
          .rune '<', .rune 'b', .rune 'r', .rune '>']) s₁ _ = some r from h)
    obtain ⟨x, s₃, rfl, hx, h₃⟩ := star_some _ _ _ _ _ _
      (show starLoop isDotClass false
        (backtrack [.capClose, .star isSpaceClass true, .rune '<', .rune 'b', .rune 'r',
          .rune '>']) s₂ _ = some r from h₂)
    have h₄ : starLoop isSpaceClass true (backtrack ("<br>".toList.map Inst.rune)) s₃ _ = some r :=
      h₃
    rw [tail_eq] at h₄
    by_cases hbr : "<br>".toList <+: List.dropWhile isSpaceClass s₃
    · obtain ⟨rest, hrest⟩ := hbr
      refine ⟨ws₁, x, List.takeWhile isSpaceClass s₃, rest, ?_, hws₁, ?_, ?_⟩
      · rw [hrest, List.takeWhile_append_dropWhile]
      · intro hin
        have := hx _ hin
        exact absurd this (by decide)
      · intro c hc
        exact (List.mem_takeWhile_imp hc)
    · rw [if_neg hbr] at h₄
      exact absurd h₄ (by simp)
  · rw [if_neg hp] at h
    exact absurd h (by simp)

/-- A text that starts with a string of the pattern starts with an occurrence
whose value is clean: white space at the ends of the value belongs to the
white space around it, and the value stops in front of the first `<br>`. -/
theorem clean_occurrence (ws₁ x ws₂ rest : GoString)
    (hws₁ : ∀ c ∈ ws₁, isSpaceClass c = true) (hx : '\n' ∉ x)
    (hws₂ : ∀ c ∈ ws₂, isSpaceClass c = true) :
    ∃ ws₁' v ws₂' rest' : GoString,
      "Build:".toList ++ (ws₁ ++ (x ++ (ws₂ ++ ("<br>".toList ++ rest)))) =
        occurrence ws₁' v ws₂' ++ rest' ∧
      (∀ c ∈ ws₁', isSpaceClass c = true) ∧ CleanValue v ∧
      (∀ c ∈ ws₂', isSpaceClass c = true) := by
  obtain ⟨n, hn⟩ : ∃ n, x.length = n := ⟨_, rfl⟩
  induction n using Nat.strong_induction_on generalizing ws₁ x ws₂ rest with
  | _ n ih =>
    by_cases h1 : ∃ c, x.head? = some c ∧ isSpaceClass c = true
    · obtain ⟨c, hc, hsp⟩ := h1
      cases x with
      | nil => simp at hc
      | cons d x' =>
        have hdc : d = c := by simpa using hc
        subst hdc
        have hlt : x'.length < n := by rw [← hn]; simp
        obtain ⟨a, v, b, r, he, ha, hv, hb⟩ := ih x'.length hlt (ws₁ ++ [d]) x' ws₂ rest
          (by
            intro e he
            rcases List.mem_append.1 he with h | h
            · exact hws₁ e h
            · rw [List.mem_singleton.1 h]; exact hsp)
          (fun h => hx (List.mem_cons_of_mem _ h)) hws₂ rfl
        refine ⟨a, v, b, r, ?_, ha, hv, hb⟩
        rw [← he]
        simp only [List.append_assoc, List.singleton_append, List.cons_append, List.nil_append]
    · by_cases h2 : ∃ c, x.getLast? = some c ∧ isSpaceClass c = true
      · obtain ⟨c, hc, hsp⟩ := h2
        have hx' : x = x.dropLast ++ [c] := (List.dropLast_append_getLast? c hc).symm
        have hlt : x.dropLast.length < n := by
          rw [← hn]
          conv_rhs => rw [hx']
          simp
        obtain ⟨a, v, b, r, he, ha, hv, hb⟩ := ih x.dropLast.length hlt ws₁ x.dropLast
          (c :: ws₂) rest hws₁
          (fun h => hx (List.mem_of_mem_dropLast h))
          (by
            intro e he
            rcases List.mem_cons.1 he with h | h
            · rw [h]; exact hsp
            · exact hws₂ e h) rfl
        refine ⟨a, v, b, r, ?_, ha, hv, hb⟩
        rw [← he]
        conv_lhs => rw [hx']
        simp only [List.append_assoc, List.singleton_append, List.cons_append, List.nil_append]
      · by_cases h3 : "<br>".toList <:+: x
        · obtain ⟨p, q, hpq⟩ := h3
          have hlt : p.length < n := by
            rw [← hn, ← hpq]
            simp only [List.length_append]
            have : "<br>".toList.length = 4 := rfl
            omega
          obtain ⟨a, v, b, r, he, ha, hv, hb⟩ := ih p.length hlt ws₁ p []
            (q ++ (ws₂ ++ ("<br>".toList ++ rest))) hws₁
            (fun h => hx (by rw [← hpq]; simp [h])) (by simp) rfl
          refine ⟨a, v, b, r, ?_, ha, hv, hb⟩
          rw [← he, ← hpq]
          simp only [List.append_assoc, List.nil_append]
        · refine ⟨ws₁, x, ws₂, rest, ?_, hws₁, ⟨?_, ?_, hx, h3⟩, hws₂⟩
          · rw [occurrence_append]
          · intro c hc
            cases hsp : isSpaceClass c with
            | false => rfl
            | true => exact absurd ⟨c, hc, hsp⟩ h1
          · intro c hc
            cases hsp : isSpaceClass c with
            | false => rfl
            | true => exact absurd ⟨c, hc, hsp⟩ h2

/-- A text that starts with a string of the pattern starts with an occurrence
whose value is clean. -/
theorem startsWithMatch_clean {s : GoString} (h : StartsWithMatch s) :
    ∃ ws₁ v ws₂ rest : GoString, s = occurrence ws₁ v ws₂ ++ rest ∧
      (∀ c ∈ ws₁, isSpaceClass c = true) ∧ CleanValue v ∧
      (∀ c ∈ ws₂, isSpaceClass c = true) := by
  obtain ⟨ws₁, x, ws₂, rest, rfl, h1, h2, h3⟩ := h
  exact clean_occurrence ws₁ x ws₂ rest h1 h2 h3

/-- Every text has a scan. -/
theorem scan_total (text : GoString) : ∃ vals, Scan text vals := by
  obtain ⟨n, hn⟩ : ∃ n, text.length = n := ⟨_, rfl⟩
  induction n using Nat.strong_induction_on generalizing text with
  | _ n ih =>
    cases text with
    | nil => exact ⟨[], Scan.done⟩
    | cons c s =>
      by_cases h : StartsWithMatch (c :: s)
      · obtain ⟨ws₁, v, ws₂, rest, he, h1, h2, h3⟩ := (startsWithMatch_clean h)
        have hlt : rest.length < n := by
          rw [← hn, he, List.length_append, occurrence_length]
          omega
        obtain ⟨vals, hvals⟩ := ih rest.length hlt rest rfl
        exact ⟨v :: vals, he ▸ Scan.hit ws₁ v ws₂ rest vals h1 h2 h3 hvals⟩
      · have hlt : s.length < n := by rw [← hn]; simp
        obtain ⟨vals, hvals⟩ := ih s.length hlt s rfl
        exact ⟨vals, Scan.skip c s vals h hvals⟩

/-- The matches the code finds are the occurrences of the scan. -/
theorem scan_findAll {text : GoString} {vals : List GoString} (h : Scan text vals) :
    (FindAllStringSubmatch buildRe text).map (fun m => m.getD 1 []) = vals := by
  unfold FindAllStringSubmatch
  induction h with
  | done => rfl
  | skip c s vals hno _ ih =>
    have hnone : backtrack buildRe (c :: s) ⟨0, 0, 0⟩ = none := by
      cases hb : backtrack buildRe (c :: s) ⟨0, 0, 0⟩ with
      | none => rfl
      | some r => exact absurd (backtrack_sound _ _ _ hb) hno
    rw [findAllFrom, hnone]
    exact ih
  | hit ws₁ v ws₂ rest vals h1 h2 h3 _ ih =>
    obtain ⟨t, ht, hpos, hsub⟩ := match_occurrence ws₁ v ws₂ rest h1 h2 h3
    have hcons : occurrence ws₁ v ws₂ ++ rest =
        'B' :: (("uild:".toList ++ (ws₁ ++ (v ++ (ws₂ ++ "<br>".toList)))) ++ rest) := rfl
    rw [hcons] at ht hsub ⊢
    rw [findAllFrom, ht]
    simp only [List.map_cons, hsub]
    have hlen : ("uild:".toList ++ (ws₁ ++ (v ++ (ws₂ ++ "<br>".toList)))).length = t.pos - 1 := by
      rw [hpos]
      show _ = ('B' :: ("uild:".toList ++ (ws₁ ++ (v ++ (ws₂ ++ "<br>".toList))))).length - 1
      simp
    rw [← hlen, findAllFrom_skip, ih]
    rfl

/-- C7, amended: for every text, the matches of the pattern are the successive
non-overlapping occurrences met scanning the text from left to right (`Scan`,
which is unique), and `matchRegEx` returns the value of the last, rightmost, of
them, the empty string when there is none; for a text with more than one
occurrence this is the last value, not the first. -/
theorem matchRegEx_last_occurrence (text : GoString) :
    ∃ vals : List GoString,
      Scan text vals ∧
      (∀ vals', Scan text vals' → vals' = vals) ∧
      (FindAllStringSubmatch buildRe text).map (fun m => m.getD 1 []) = vals ∧
      matchRegEx text = vals.getLast?.getD [] ∧
      (∀ first last : GoString, ∀ mid : List GoString,
        vals = first :: (mid ++ [last]) → matchRegEx text = last) := by
  obtain ⟨vals, hscan⟩ := scan_total text
  have hfind := (scan_findAll hscan)
  have hlast : matchRegEx text = vals.getLast?.getD [] := by
    rw [matchRegEx_of_matches, ← hfind, List.getLast?_map]
    cases (FindAllStringSubmatch buildRe text).getLast? <;> rfl
  refine ⟨vals, hscan, ?_, hfind, hlast, ?_⟩
  · intro vals' h'
    rw [← (scan_findAll h'), hfind]
  · intro first last mid hv
    rw [hlast, hv, ← List.cons_append, List.getLast?_append]
    rfl

/-- A value is clean when the four conditions hold of it. -/
theorem cleanValue_of_checks (v : GoString)
    (h1 : ∀ c ∈ v.head?, isSpaceClass c = false)
    (h2 : ∀ c ∈ v.getLast?, isSpaceClass c = false)
    (h3 : '\n' ∉ v) (h4 : Contains v "<br>".toList = false) : CleanValue v :=
  ⟨fun c hc => h1 c hc, fun c hc => h2 c hc, h3, by
    rw [← contains_iff, h4]; decide⟩

/-- The text `Build: a<br>Build: b<br>` scans to the values `a`, `b` and gives
`b`; the text `Build: Build: x<br>` holds one occurrence, whose value is
`Build: x`. -/
theorem matchRegEx_last_occurrence_witness :
    Scan "Build: a<br>Build: b<br>".toList ["a".toList, "b".toList] ∧
    matchRegEx "Build: a<br>Build: b<br>".toList = "b".toList ∧
    Scan "Build: Build: x<br>".toList ["Build: x".toList] ∧
    matchRegEx "Build: Build: x<br>".toList = "Build: x".toList := by
  have hs : Scan "Build: a<br>Build: b<br>".toList ["a".toList, "b".toList] :=
    Scan.hit [' '] "a".toList [] "Build: b<br>".toList ["b".toList] (by decide)
      (cleanValue_of_checks _ (by decide) (by decide) (by decide) (by decide)) (by decide)
      (Scan.hit [' '] "b".toList [] [] [] (by decide)
        (cleanValue_of_checks _ (by decide) (by decide) (by decide) (by decide)) (by decide)
        Scan.done)
  have hx : Scan "Build: Build: x<br>".toList ["Build: x".toList] :=
    Scan.hit [' '] "Build: x".toList [] [] [] (by decide)
      (cleanValue_of_checks _ (by decide) (by decide) (by decide) (by decide)) (by decide)
      Scan.done
  obtain ⟨vals, _, huniq, _, _, hmany⟩ :=
    matchRegEx_last_occurrence "Build: a<br>Build: b<br>".toList
  obtain ⟨vals', _, huniq', _, hlast', _⟩ :=
    matchRegEx_last_occurrence "Build: Build: x<br>".toList
  refine ⟨hs, hmany "a".toList "b".toList [] (huniq _ hs).symm, hx, ?_⟩
  rw [hlast', ← huniq' _ hx]
  rfl

/-- The handler, branch by branch, once the user is known: the status query
collects the regions and builds the status reply, the other two branches post
their fixed text. -/
theorem HandleAppMentionEventToBot_branches (w : World) (realName eventText : GoString)
    (huser : w.userInfo = Except.ok realName) :
    (commandIntent w.lowerTable eventText = Intent.statusQuery →
      HandleAppMentionEventToBot w eventText =
        match collect balancerSlice w.farmName w.arrival with
        | none => Except.error Failure.blocked
        | some result =>
          match statusReply w.lowerTable w.page realName (w.visit result) with
          | Except.error f => Except.error f
          | Except.ok text => Except.ok ⟨text, "#4af030".toList⟩) ∧
    (commandIntent w.lowerTable eventText = Intent.help →
      HandleAppMentionEventToBot w eventText =
        Except.ok ⟨sprintfHello realName ++ "Only one operation is avalable for now \n".toList
          ++ "active_node or !an - bot will display Site1\\Site2\\Site3 active node and deployed build \n".toList,
          "#4af030".toList⟩) ∧
    (commandIntent w.lowerTable eventText = Intent.fallback →
      HandleAppMentionEventToBot w eventText =
        Except.ok ⟨sprintfHello realName ++ "Try to use \x27help\x27 with the bot name \n".toList,
          "#4af030".toList⟩) := by
  refine ⟨?_, ?_, ?_⟩ <;> intro h <;> simp only [HandleAppMentionEventToBot, huser, h]

/-- The handler on the program as it stands: with the farm name and the page of
the source every region is green and the reply shows the build of the page. -/
theorem HandleAppMentionEventToBot_stub :
    HandleAppMentionEventToBot
        ⟨id, Except.ok "Ann".toList, fun _ => stubFarmName,
          ["site2".toList, "site1".toList, "site3".toList], List.reverse, fun _ => resBody⟩
        "<@U1> !AN".toList =
      Except.ok ⟨"Hello Ann\nSite1 is :green_circle: Build <https://deploy.app.com/releases/20210314.1.2730-new-cool-ui-feature|[20210314.1.2730-new-cool-ui-feature]>\nSite2 is :green_circle: Build <https://deploy.app.com/releases/20210314.1.2730-new-cool-ui-feature|[20210314.1.2730-new-cool-ui-feature]>\nSite3 is :green_circle: Build <https://deploy.app.com/releases/20210314.1.2730-new-cool-ui-feature|[20210314.1.2730-new-cool-ui-feature]>\n".toList,
        "#4af030".toList⟩ := by
  rfl

end SlackBot
